import Mathlib

/-!
Verification of the terrain-generation core against its specification.

The Rust source is shallowly embedded: `f32` values are modelled as exact
rationals (`ℚ`), fallible code (array-indexing panics, `unwrap`) returns
`Option`, and the seeded random stream is a parameter.  Definitions follow
the source functions of `src/` name by name; definitions that follow the
specification's words instead (for comparison with the code, or standing in
for the external `delaunator` crate) say so in their doc comments.
-/

set_option maxHeartbeats 1000000

namespace Terra

/-- 2D vector over the rationals, modelling the `f32`-pair `Vec2` of the source
in exact arithmetic. -/
structure Vec2 where
  x : ℚ
  y : ℚ
deriving DecidableEq

/-- 3D vector over the rationals, modelling `Vec3`. -/
structure Vec3 where
  x : ℚ
  y : ℚ
  z : ℚ
deriving DecidableEq

/-- Exact square root on `ℚ`: the nonnegative root when the argument is the
square of a rational, else `0`.  This models `f32::sqrt`, which is exact on
machine-representable perfect squares; every value this file applies it to is
such a square, so the default branch is never exercised by the theorems. -/
def sqrtQ (q : ℚ) : ℚ :=
  let n := Nat.sqrt q.num.natAbs
  let d := Nat.sqrt q.den
  if 0 ≤ q ∧ ((n : ℤ) ^ 2 = q.num ∧ d ^ 2 = q.den) then (n : ℚ) / (d : ℚ) else 0

/-- Squared distance between two points (`Vec2::distance_squared`). -/
def distanceSq (a b : Vec2) : ℚ :=
  (a.x - b.x) ^ 2 + (a.y - b.y) ^ 2

/-- Distance between two points (`Vec2::distance`). -/
def distance (a b : Vec2) : ℚ :=
  sqrtQ (distanceSq a b)

/-- Linear interpolation of `val` from the range `[inMin, inMax]` to
`[outMin, outMax]` (nannou's `map_range`). -/
def mapRange (val inMin inMax outMin outMax : ℚ) : ℚ :=
  (val - inMin) / (inMax - inMin) * (outMax - outMin) + outMin

/-- Rust's `clamp` on our rational model of `f32`. -/
def clampQ (v lo hi : ℚ) : ℚ :=
  if v < lo then lo else if v > hi then hi else v

/-- The source's `map_clamp`: `map_range` followed by clamping to the output
range. -/
def mapClamp (val inMin inMax outMin outMax : ℚ) : ℚ :=
  clampQ (mapRange val inMin inMax outMin outMax) outMin outMax

/-- The source's `saturate`: clamp to `[0, 1]`. -/
def saturate (n : ℚ) : ℚ :=
  clampQ n 0 1

/-- The source's `minmax`: smallest and largest element of a slice, `none` on
the empty slice. -/
def minmaxQ (arr : List ℚ) : Option (ℚ × ℚ) :=
  match arr with
  | [] => none
  | a :: _ => some (arr.foldl (fun (mm : ℚ × ℚ) e => (min e mm.1, max e mm.2)) (a, a))

/-- The source's `normalize`: map a slice affinely so that its minimum goes to
`0` and its maximum to `1` (identity on the empty slice). -/
def normalizeQ (arr : List ℚ) : List ℚ :=
  match minmaxQ arr with
  | none => arr
  | some (mn, mx) => arr.map (fun e => mapRange e mn mx 0 1)

/-- Range of scalars, modelling nannou's `Range` (`start` and `end`; the latter
is spelled `stop` because `end` is reserved). -/
structure RangeQ where
  start : ℚ
  stop : ℚ
deriving DecidableEq

/-- Axis-aligned rectangle, modelling nannou's `Rect` as its two ranges. -/
structure RectQ where
  x : RangeQ
  y : RangeQ
deriving DecidableEq

/-- Width of a rectangle (`Rect::w`). -/
def RectQ.w (r : RectQ) : ℚ :=
  r.x.stop - r.x.start

/-- Height of a rectangle (`Rect::h`). -/
def RectQ.h (r : RectQ) : ℚ :=
  r.y.stop - r.y.start

/-- Point membership in a rectangle (`Rect::contains`), bounds inclusive. -/
def RectQ.containsP (r : RectQ) (p : Vec2) : Bool :=
  (r.x.start ≤ p.x && p.x ≤ r.x.stop) && (r.y.start ≤ p.y && p.y ≤ r.y.stop)

/-- The source's `expand_rect`: grow a rectangle by `margin` on every side
(`Rect::from_xy_wh` of the same centre and `wh + 2 * margin`). -/
def expandRect (rect : RectQ) (margin : ℚ) : RectQ :=
  ⟨⟨rect.x.start - margin, rect.x.stop + margin⟩,
   ⟨rect.y.start - margin, rect.y.stop + margin⟩⟩

/-- Truncation of an `f32` toward zero as in Rust's `as i32` cast, on our
rational model. -/
def f32AsI32 (q : ℚ) : Int :=
  if 0 ≤ q then q.floor else -((-q).floor)

/-! ### Sea-level fix (`terrain_data.rs`, claim C3) -/

/-- The source's `median`: sort ascending and take the middle element, or for
an even count average the element at index `len / 2` with the one at
`len / 2 + 1`; `none` models the index-out-of-bounds panic of
`sorted[sorted_mid + 1]` (hit when the length is `0` or `2`). -/
def median (elevation : List ℚ) : Option ℚ :=
  let sorted := List.insertionSort (· ≤ ·) elevation
  let sortedLen := sorted.length
  let sortedMid := sortedLen / 2
  if sortedLen % 2 = 0 then
    if sortedMid + 1 < sortedLen then
      some ((sorted.getD sortedMid 0 + sorted.getD (sortedMid + 1) 0) * (1 / 2))
    else
      none
  else
    some (sorted.getD sortedMid 0)

/-- The source's `set_sealevel`: subtract `sealevel` from every elevation. -/
def setSealevel (elevation : List ℚ) (sealevel : ℚ) : List ℚ :=
  elevation.map (fun e => e - sealevel)

/-- The source's `set_median_sealevel`; `none` propagates `median`'s panic. -/
def setMedianSealevel (elevation : List ℚ) : Option (List ℚ) :=
  (median elevation).map (setSealevel elevation)

/-- True median of a sorted slice, following the specification's words
(modelled from the spec, for comparison): for an even count, the average of
the two middle elements, which sit at indices `len / 2 - 1` and `len / 2`. -/
def medianOfSpec (elevation : List ℚ) : Option ℚ :=
  let sorted := List.insertionSort (· ≤ ·) elevation
  let sortedLen := sorted.length
  if sortedLen = 0 then none
  else if sortedLen % 2 = 0 then
    some ((sorted.getD (sortedLen / 2 - 1) 0 + sorted.getD (sortedLen / 2) 0) * (1 / 2))
  else
    some (sorted.getD (sortedLen / 2) 0)

/-! ### Boundary points (`terrain.rs`, claim C8) -/

/-- Integer range `1 .. n` (exclusive upper bound), empty when `n ≤ 1`,
modelling Rust's `for i in 1..n` over an `i32` bound. -/
def intRangeFrom1 (n : Int) : List Int :=
  ((List.range n.toNat).drop 1).map Int.ofNat

/-- The source's `generate_boundary_points`: corners of the two expanded
rectangles, then evenly spaced points along the inner rectangle's sides, then
the offset points of the outer rectangle.  The interpolation bound `nx` in the
inner vertical loop is preserved exactly as written in the source. -/
def generateBoundaryPoints (extent : RectQ) (dist : ℚ) : List Vec2 :=
  let innerExtent := expandRect extent (dist * 1)
  let outerExtent := expandRect extent (dist * 2)
  let innerCorners : List Vec2 :=
    [⟨innerExtent.x.start, innerExtent.y.start⟩, ⟨innerExtent.x.stop, innerExtent.y.start⟩,
     ⟨innerExtent.x.stop, innerExtent.y.stop⟩, ⟨innerExtent.x.start, innerExtent.y.stop⟩]
  let outerCorners : List Vec2 :=
    [⟨outerExtent.x.start, outerExtent.y.start⟩, ⟨outerExtent.x.stop, outerExtent.y.start⟩,
     ⟨outerExtent.x.stop, outerExtent.y.stop⟩, ⟨outerExtent.x.start, outerExtent.y.stop⟩]
  let minX := innerExtent.x.start
  let maxX := innerExtent.x.stop
  let minY := innerExtent.y.start
  let maxY := innerExtent.y.stop
  let nx := f32AsI32 (innerExtent.w / dist) - 1
  let ny := f32AsI32 (innerExtent.h / dist) - 1
  let innerHorizontal := (intRangeFrom1 nx).flatMap (fun i =>
    let x := mapRange (i : ℚ) 0 (nx : ℚ) minX maxX
    [(⟨x, minY⟩ : Vec2), ⟨x, maxY⟩])
  let innerVertical := (intRangeFrom1 ny).flatMap (fun i =>
    let y := mapRange (i : ℚ) 0 (nx : ℚ) minY maxY
    [(⟨minX, y⟩ : Vec2), ⟨maxX, y⟩])
  let nx2 := nx + 1
  let ny2 := ny + 1
  let outerHorizontal := (intRangeFrom1 nx2).flatMap (fun i =>
    let x := mapRange (i : ℚ) 0 (nx2 : ℚ) (minX - dist * (1 / 2)) (maxX + dist * (1 / 2))
    [(⟨x, minY - dist⟩ : Vec2), ⟨x, maxY + dist⟩])
  let outerVertical := (intRangeFrom1 ny2).flatMap (fun i =>
    let y := mapRange (i : ℚ) 0 (ny2 : ℚ) (minY - dist * (1 / 2)) (maxY + dist * (1 / 2))
    [(⟨minX - dist, y⟩ : Vec2), ⟨maxX + dist, y⟩])
  innerCorners ++ outerCorners ++ innerHorizontal ++ innerVertical ++
    outerHorizontal ++ outerVertical

/-- Membership on the perimeter (ring) of a rectangle.  Modelled from the
spec's words: a point lies on a rectangular ring when it is on one of the four
side segments. -/
def onRing (r : RectQ) (p : Vec2) : Bool :=
  ((r.x.start ≤ p.x && p.x ≤ r.x.stop) && (p.y == r.y.start || p.y == r.y.stop)) ||
  ((r.y.start ≤ p.y && p.y ≤ r.y.stop) && (p.x == r.x.start || p.x == r.x.stop))

/-- C3: the sea-level fix does not subtract the median.  On the elevation
array `[0, 1, 2, 3]`, `median` averages the elements at indices `len / 2` and
`len / 2 + 1` (values `2` and `3`), so the code subtracts `5 / 2` while the
true median (which `medianOfSpec` computes from the spec's words) is `3 / 2`;
afterwards one vertex has elevation `≥ 0` and three have elevation `< 0`, a
difference of `2 > 1`.  On a two-element array, `sorted[sorted_mid + 1]`
indexes out of bounds (`median` returns `none`, modelling the panic). -/
theorem claim3_median_eval :
    median [0, 1, 2, 3] = some (5 / 2) ∧
    medianOfSpec [0, 1, 2, 3] = some (3 / 2) ∧
    setMedianSealevel [0, 1, 2, 3] = some [-5/2, -3/2, -1/2, 1/2] ∧
    ([(-5 : ℚ)/2, -3/2, -1/2, 1/2].countP (fun e => decide ((0 : ℚ) ≤ e)) = 1 ∧
     [(-5 : ℚ)/2, -3/2, -1/2, 1/2].countP (fun e => decide (e < (0 : ℚ))) = 3) ∧
    median [1, 2] = none := by
  refine ⟨?_, ?_, ?_, ⟨?_, ?_⟩, ?_⟩ <;>
    norm_num [median, medianOfSpec, setMedianSealevel, setSealevel,
      List.insertionSort, List.orderedInsert, List.countP, List.countP.go]

/-- C8: for the 100 × 300 domain `[-50, 50] × [-150, 150]` with separation
distance `10`, the inner ring's vertical sides are interpolated with the
horizontal subdivision count `nx = 11` instead of `ny = 31`, so iteration
`i = 12` produces the point `(-60, 2080/11)` (`2080/11 ≈ 189.1`), which lies
on neither the inner ring (`[-60, 60] × [-160, 160]`) nor the outer ring
(`[-70, 70] × [-170, 170]`) — its `y` overshoots both rectangles. -/
theorem claim8_boundary_points_eval :
    (⟨-60, 2080/11⟩ : Vec2) ∈
      generateBoundaryPoints ⟨⟨-50, 50⟩, ⟨-150, 150⟩⟩ 10 ∧
    onRing (expandRect ⟨⟨-50, 50⟩, ⟨-150, 150⟩⟩ (10 * 1)) ⟨-60, 2080/11⟩ = false ∧
    onRing (expandRect ⟨⟨-50, 50⟩, ⟨-150, 150⟩⟩ (10 * 2)) ⟨-60, 2080/11⟩ = false := by
  refine ⟨?_, ?_, ?_⟩
  · rw [generateBoundaryPoints]
    refine List.mem_append.2 (Or.inl ?_)
    refine List.mem_append.2 (Or.inl ?_)
    refine List.mem_append.2 (Or.inr ?_)
    refine List.mem_flatMap.2 ⟨12, ?_, ?_⟩
    · have h1 : f32AsI32 ((expandRect ⟨⟨-50, 50⟩, ⟨-150, 150⟩⟩ (10 * 1)).h / 10) - 1 = 31 := by
        norm_num [f32AsI32, expandRect, RectQ.h, Rat.floor]
      rw [h1]
      decide
    · have h2 : f32AsI32 ((expandRect ⟨⟨-50, 50⟩, ⟨-150, 150⟩⟩ (10 * 1)).w / 10) - 1 = 11 := by
        norm_num [f32AsI32, expandRect, RectQ.w, Rat.floor]
      rw [h2]
      norm_num [mapRange, expandRect]
  · norm_num [onRing, expandRect]
  · norm_num [onRing, expandRect]

/-! ### Priority queue (`util/priority_index.rs`)

The source wraps a `BinaryHeap` of entries ordered by an `OrderedFloat`
score only; `pop` returns an entry of maximal score, the order among equal
scores being unspecified by `BinaryHeap`.  The model keeps the entries in a
list, `push` prepending and `pop` removing the first entry of maximal
score. -/

/-- Push a value with a score (`PriorityQueue::push`). -/
def pqPush {α : Type} (q : List (α × ℚ)) (v : α) (s : ℚ) : List (α × ℚ) :=
  (v, s) :: q

/-- Pop an entry of maximal score together with the remaining queue
(`PriorityQueue::pop`); `none` on the empty queue. -/
def pqPop {α : Type} : List (α × ℚ) → Option ((α × ℚ) × List (α × ℚ))
  | [] => none
  | e :: rest =>
    match pqPop rest with
    | none => some (e, [])
    | some (f, rest') => if e.2 < f.2 then some (f, e :: rest') else some (e, rest)

theorem pqPop_eq_none_iff {α : Type} (q : List (α × ℚ)) :
    pqPop q = none ↔ q = [] := by
  cases q with
  | nil => simp [pqPop]
  | cons e rest =>
    simp only [pqPop]
    cases h : pqPop rest with
    | none => simp
    | some p =>
      obtain ⟨f', r'⟩ := p
      by_cases hl : e.2 < f'.2 <;> simp [hl]

/-- Popping permutes the queue into the popped entry and the rest. -/
theorem pqPop_perm {α : Type} :
    ∀ (q : List (α × ℚ)) e rest, pqPop q = some (e, rest) → q.Perm (e :: rest) := by
  intro q
  induction q with
  | nil => intro e rest h; simp [pqPop] at h
  | cons f tail ih =>
    intro e rest h
    simp only [pqPop] at h
    cases htail : pqPop tail with
    | none =>
      rw [htail] at h
      have : tail = [] := (pqPop_eq_none_iff tail).1 htail
      subst this
      simp at h
      simp [h.1, h.2]
    | some p =>
      rw [htail] at h
      obtain ⟨g, rest'⟩ := p
      by_cases hlt : f.2 < g.2
      · simp [hlt] at h
        obtain ⟨he, hr⟩ := h
        subst he
        subst hr
        have hperm := ih g rest' htail
        exact (hperm.cons f).trans (List.Perm.swap g f rest')
      · simp [hlt] at h
        obtain ⟨he, hr⟩ := h
        subst he
        subst hr
        exact List.Perm.refl _

/-- The popped entry has a maximal score. -/
theorem pqPop_max {α : Type} :
    ∀ (q : List (α × ℚ)) e rest, pqPop q = some (e, rest) →
      ∀ f ∈ q, f.2 ≤ e.2 := by
  intro q
  induction q with
  | nil => intro e rest h; simp [pqPop] at h
  | cons f tail ih =>
    intro e rest h
    simp only [pqPop] at h
    cases htail : pqPop tail with
    | none =>
      rw [htail] at h
      have : tail = [] := (pqPop_eq_none_iff tail).1 htail
      subst this
      simp at h
      intro g hg
      simp at hg
      subst hg
      simp [h.1]
    | some p =>
      rw [htail] at h
      obtain ⟨g, rest'⟩ := p
      by_cases hlt : f.2 < g.2
      · simp [hlt] at h
        obtain ⟨he, _⟩ := h
        subst he
        intro x hx
        rcases List.mem_cons.1 hx with hx | hx
        · subst hx; exact le_of_lt hlt
        · exact ih g rest' htail x hx
      · simp [hlt] at h
        obtain ⟨he, _⟩ := h
        subst he
        intro x hx
        rcases List.mem_cons.1 hx with hx | hx
        · subst hx; exact le_refl _
        · exact le_trans (ih g rest' htail x hx) (not_lt.1 hlt)

/-! ### List helper lemmas -/

theorem getD_set_self {α : Type} (l : List α) (i : Nat) (a d : α) (h : i < l.length) :
    (l.set i a).getD i d = a := by
  induction l generalizing i with
  | nil => simp at h
  | cons b t ih =>
    cases i with
    | zero => simp [List.set, List.getD]
    | succ j =>
      simp only [List.set, List.getD_cons_succ]
      exact ih j (by simpa using h)

theorem getD_set_ne {α : Type} (l : List α) (i j : Nat) (a d : α) (h : i ≠ j) :
    (l.set i a).getD j d = l.getD j d := by
  induction l generalizing i j with
  | nil => simp [List.set]
  | cons b t ih =>
    cases i with
    | zero =>
      cases j with
      | zero => exact absurd rfl h
      | succ k => simp [List.set, List.getD]
    | succ i' =>
      cases j with
      | zero => simp [List.set, List.getD]
      | succ k =>
        simp only [List.set, List.getD_cons_succ]
        exact ih i' k (fun hc => h (by rw [hc]))

theorem getD_true_lt_length (l : List Bool) (v : Nat) (h : l.getD v false = true) :
    v < l.length := by
  by_contra hc
  rw [List.getD_eq_default] at h
  · exact Bool.false_ne_true h
  · omega

theorem countP_set_true (l : List Bool) (v : Nat) (hfalse : l.getD v false = false)
    (hv : v < l.length) :
    (l.set v true).countP (fun b => b) = l.countP (fun b => b) + 1 := by
  induction l generalizing v with
  | nil => simp at hv
  | cons b t ih =>
    cases v with
    | zero =>
      simp [List.getD] at hfalse
      simp [List.set, List.countP_cons, hfalse]
    | succ j =>
      simp only [List.getD_cons_succ] at hfalse
      simp only [List.set, List.countP_cons]
      rw [ih j hfalse (by simpa using hv)]
      omega

theorem countP_true_pos (l : List Bool) (v : Nat) (h : l.getD v false = true) :
    0 < l.countP (fun b => b) := by
  have hv := getD_true_lt_length l v h
  refine List.countP_pos_iff.2 ⟨true, ?_, rfl⟩
  have hd : l.getD v false = l[v] := List.getD_eq_getElem l false hv
  rw [hd] at h
  rw [← h]
  exact List.getElem_mem hv

theorem countP_true_le_length (l : List Bool) :
    l.countP (fun b => b) ≤ l.length :=
  List.countP_le_length _

/-! ### The planar dual graph interface (`terrain_graph.rs`) -/

/-- Classification of a dual-graph vertex (`VertexType`). -/
inductive VertexType where
  | Interior : VertexType
  | Boundary : VertexType
deriving DecidableEq

/-- The planar dual graph as consumed by the hydrology and region stages,
mirroring the used fields of `TerrainGraph`.  Modelled from the spec: `adj`
stands for `TerrainGraph::connected_vertices` and `icvF` for
`TerrainGraph::interior_connected_vertices`, both of which the source derives
from the half-edge tables of the external `delaunator` crate (code that is
not part of this repository); they are taken here as the graph's connectivity
interface, with `icvF v = none` modelling the `None` result on a boundary
vertex.  Claim C9 verifies the half-edge derivation itself over an embedded
triangulation. -/
structure TGraph where
  vertices : List Vec2
  vertexType : List VertexType
  adj : Nat → List Nat
  icvF : Nat → Option (Nat × Nat × Nat)

/-- Number of dual-graph vertices. -/
def TGraph.n (g : TGraph) : Nat :=
  g.vertices.length

/-- Indices of the boundary vertices, derived from `vertex_type` exactly as in
`TerrainGraph::new`. -/
def TGraph.boundaryIdx (g : TGraph) : List Nat :=
  (List.range g.n).filter (fun i => decide (g.vertexType.getD i .Interior = .Boundary))

/-- Indices of the interior vertices, derived from `vertex_type` exactly as in
`TerrainGraph::new`. -/
def TGraph.interiorIdx (g : TGraph) : List Nat :=
  (List.range g.n).filter (fun i => decide (g.vertexType.getD i .Interior ≠ .Boundary))

/-- Well-formedness of the graph interface: the type table matches the vertex
count and adjacency stays in range (spec §3: per-vertex arrays are
index-aligned, every neighbor is a graph vertex). -/
structure TGraph.WF (g : TGraph) : Prop where
  typeLen : g.vertexType.length = g.n
  adjRange : ∀ v, v < g.n → ∀ w ∈ g.adj v, w < g.n

/-! ### Flow generation (`erosion/generate_flow.rs`, claim C4) -/

/-- State of the priority-flood traversal: the flow targets, the open priority
queue and the seen markers of `generate_flow`. -/
structure FlowState where
  flow : List (Option Nat)
  openQ : List (Nat × ℚ)
  seen : List Bool

/-- Seeding of `generate_flow`: push every boundary vertex keyed by its
negative elevation and mark it seen. -/
def flowSeed (g : TGraph) (elevation : List ℚ) : FlowState :=
  g.boundaryIdx.foldl
    (fun st v =>
      { st with
        openQ := pqPush st.openQ v (-(elevation.getD v 0)),
        seen := st.seen.set v true })
    { flow := List.replicate g.n none, openQ := [], seen := List.replicate g.n false }

/-- Body of the inner `for neighbor in connected_vertices(next)` loop of
`generate_flow`: an unseen neighbor gets its flow target set to the popped
vertex, is marked seen, and is pushed keyed by its own negative elevation. -/
def flowProcessNeighbor (elevation : List ℚ) (next : Nat) (st : FlowState)
    (neighbor : Nat) : FlowState :=
  if st.seen.getD neighbor false then st
  else
    { flow := st.flow.set neighbor (some next),
      seen := st.seen.set neighbor true,
      openQ := pqPush st.openQ neighbor (-(elevation.getD neighbor 0)) }

/-- The `while let Some(next) = open.pop()` loop of `generate_flow`, with
explicit fuel (the source loop terminates because every vertex is pushed at
most once; `generateFlow` supplies fuel exceeding the loop's decreasing
measure). -/
def flowLoop (g : TGraph) (elevation : List ℚ) : Nat → FlowState → FlowState
  | 0, st => st
  | fuel + 1, st =>
    match pqPop st.openQ with
    | none => st
    | some ((next, _), rest) =>
      flowLoop g elevation fuel
        ((g.adj next).foldl (flowProcessNeighbor elevation next) { st with openQ := rest })

/-- Decreasing measure of the flow loop: queue size plus twice the number of
unseen vertices (a pop costs one; each newly seen neighbor adds one queue
entry and removes one unseen vertex). -/
def flowMeasure (st : FlowState) : Nat :=
  st.openQ.length + 2 * st.seen.countP (fun b => decide (b = false))

/-- The source's `generate_flow`. -/
def generateFlow (g : TGraph) (elevation : List ℚ) : List (Option Nat) :=
  let st := flowSeed g elevation
  (flowLoop g elevation (flowMeasure st + 1) st).flow

/-- A flow array is ranked when some ranking strictly decreases along flow
targets and is bounded by `n`; this is the acyclicity certificate that the
priority-flood traversal maintains. -/
def RankedFlow (n : Nat) (flow : List (Option Nat)) : Prop :=
  ∃ r : Nat → Nat, ∀ v t, flow.getD v none = some t →
    v < n ∧ t < n ∧ r t < r v ∧ r v < n

/-- Loop invariant of the priority-flood traversal. -/
structure FlowInv (g : TGraph) (st : FlowState) : Prop where
  flowLen : st.flow.length = g.n
  seenLen : st.seen.length = g.n
  queueOk : ∀ e ∈ st.openQ, e.1 < g.n ∧ st.seen.getD e.1 false = true
  ranked : ∃ r : Nat → Nat,
    (∀ v, st.seen.getD v false = true → r v < st.seen.countP (fun b => b)) ∧
    (∀ v t, st.flow.getD v none = some t →
      st.seen.getD v false = true ∧ st.seen.getD t false = true ∧ r t < r v ∧
      v < g.n ∧ t < g.n)

theorem flowSeedAux (g : TGraph) (elevation : List ℚ) :
    ∀ (l : List Nat), (∀ v ∈ l, v < g.n) → ∀ (st : FlowState),
      st.flow = List.replicate g.n none → st.seen.length = g.n →
      (∀ e ∈ st.openQ, e.1 < g.n ∧ st.seen.getD e.1 false = true) →
      ((l.foldl
        (fun st v =>
          { st with
            openQ := pqPush st.openQ v (-(elevation.getD v 0)),
            seen := st.seen.set v true }) st).flow = List.replicate g.n none ∧
       (l.foldl
        (fun st v =>
          { st with
            openQ := pqPush st.openQ v (-(elevation.getD v 0)),
            seen := st.seen.set v true }) st).seen.length = g.n ∧
       (∀ e ∈ (l.foldl
        (fun st v =>
          { st with
            openQ := pqPush st.openQ v (-(elevation.getD v 0)),
            seen := st.seen.set v true }) st).openQ,
          e.1 < g.n ∧
          (l.foldl
            (fun st v =>
              { st with
                openQ := pqPush st.openQ v (-(elevation.getD v 0)),
                seen := st.seen.set v true }) st).seen.getD e.1 false = true)) := by
  intro l
  induction l with
  | nil => intro _ st h1 h2 h3; exact ⟨h1, h2, h3⟩
  | cons v tail ih =>
    intro hbd st h1 h2 h3
    have hv : v < g.n := hbd v (List.mem_cons_self v tail)
    have htl : ∀ w ∈ tail, w < g.n := fun w hw => hbd w (List.mem_cons_of_mem v hw)
    rw [List.foldl_cons]
    refine ih htl _ h1 (by simpa using h2) ?_
    intro e he
    rcases List.mem_cons.1 he with he | he
    · subst he
      exact ⟨hv, getD_set_self _ _ _ _ (by rw [h2]; exact hv)⟩
    · obtain ⟨ha, hb⟩ := h3 e he
      refine ⟨ha, ?_⟩
      by_cases hev : v = e.1
      · subst hev
        exact getD_set_self _ _ _ _ (by rw [h2]; exact hv)
      · rw [getD_set_ne _ _ _ _ _ hev]
        exact hb

theorem flowSeed_inv (g : TGraph) (elevation : List ℚ) :
    FlowInv g (flowSeed g elevation) := by
  have hbd : ∀ v ∈ g.boundaryIdx, v < g.n := by
    intro v hv
    exact List.mem_range.1 (List.mem_of_mem_filter hv)
  obtain ⟨h1, h2, h3⟩ := flowSeedAux g elevation g.boundaryIdx hbd
    ⟨List.replicate g.n none, [], List.replicate g.n false⟩ rfl (by simp) (by simp)
  rw [flowSeed]
  refine ⟨by rw [h1]; simp, h2, h3, fun _ => 0, ?_, ?_⟩
  · intro v hv
    exact countP_true_pos _ v hv
  · intro v t hvt
    rw [h1] at hvt
    by_cases hlt : v < g.n
    · rw [List.getD_eq_getElem _ _ (by simpa using hlt)] at hvt
      simp at hvt
    · rw [List.getD_eq_default _ _ (by simpa using Nat.le_of_not_lt hlt)] at hvt
      simp at hvt

theorem flowProcessNeighbor_inv (g : TGraph) (elevation : List ℚ)
    (st : FlowState) (next neighbor : Nat)
    (hinv : FlowInv g st) (hnext : st.seen.getD next false = true)
    (hnb : neighbor < g.n) :
    FlowInv g (flowProcessNeighbor elevation next st neighbor) ∧
    (∀ w, st.seen.getD w false = true →
      (flowProcessNeighbor elevation next st neighbor).seen.getD w false = true) := by
  obtain ⟨hfl, hsl, hq, r, hr1, hr2⟩ := hinv
  rw [flowProcessNeighbor]
  by_cases hseen : st.seen.getD neighbor false = true
  · simp only [hseen, if_true]
    exact ⟨⟨hfl, hsl, hq, r, hr1, hr2⟩, fun w hw => hw⟩
  · have hseenF : st.seen.getD neighbor false = false := by
      cases h : st.seen.getD neighbor false
      · rfl
      · exact absurd h hseen
    simp only [hseenF, Bool.false_eq_true, if_false]
    have hnbs : neighbor < st.seen.length := by rw [hsl]; exact hnb
    have hnbf : neighbor < st.flow.length := by rw [hfl]; exact hnb
    have hcnt : (st.seen.set neighbor true).countP (fun b => b) =
        st.seen.countP (fun b => b) + 1 := countP_set_true _ _ hseenF hnbs
    have hmono : ∀ w, st.seen.getD w false = true →
        (st.seen.set neighbor true).getD w false = true := by
      intro w hw
      by_cases hwn : neighbor = w
      · subst hwn
        exact getD_set_self _ _ _ _ hnbs
      · rw [getD_set_ne _ _ _ _ _ hwn]
        exact hw
    have hnn : next ≠ neighbor := by
      intro hc
      rw [hc, hseenF] at hnext
      exact Bool.false_ne_true hnext
    refine ⟨⟨by simpa using hfl, by simpa using hsl, ?_, ?_⟩, fun w hw => hmono w hw⟩
    · intro e he
      rcases List.mem_cons.1 he with he | he
      · subst he
        exact ⟨hnb, getD_set_self _ _ _ _ hnbs⟩
      · obtain ⟨ha, hb⟩ := hq e he
        exact ⟨ha, hmono _ hb⟩
    · refine ⟨fun x => if x = neighbor then st.seen.countP (fun b => b) else r x, ?_, ?_⟩
      · intro v hv
        rw [hcnt]
        by_cases hvn : v = neighbor
        · simp [hvn]
        · simp only [hvn, if_false]
          rw [getD_set_ne _ _ _ _ _ (fun hc => hvn hc.symm)] at hv
          exact Nat.lt_succ_of_lt (hr1 v hv)
      · intro v t hvt
        by_cases hvn : v = neighbor
        · subst hvn
          rw [getD_set_self _ _ _ _ hnbf] at hvt
          have ht : t = next := by
            injection hvt with h
            exact h.symm
          subst ht
          refine ⟨getD_set_self _ _ _ _ hnbs, hmono _ hnext, ?_, hnb, ?_⟩
          · simp only [if_pos rfl, hnn, if_false]
            exact hr1 t hnext
          · exact getD_true_lt_length _ _ hnext |>.trans_eq hsl
        · rw [getD_set_ne _ _ _ _ _ (fun hc => hvn hc.symm)] at hvt
          obtain ⟨h1, h2, h3, h4, h5⟩ := hr2 v t hvt
          have htn : t ≠ neighbor := by
            intro hc
            rw [hc, hseenF] at h2
            exact Bool.false_ne_true h2
          refine ⟨hmono _ h1, hmono _ h2, ?_, h4, h5⟩
          simp only [hvn, htn, if_false]
          exact h3

theorem flowFold_inv (g : TGraph) (elevation : List ℚ) (next : Nat) :
    ∀ (l : List Nat), (∀ w ∈ l, w < g.n) → ∀ (st : FlowState),
      FlowInv g st → st.seen.getD next false = true →
      FlowInv g (l.foldl (flowProcessNeighbor elevation next) st) := by
  intro l
  induction l with
  | nil => intro _ st hinv _; exact hinv
  | cons w tail ih =>
    intro hl st hinv hnext
    have hw : w < g.n := hl w (List.mem_cons_self w tail)
    obtain ⟨hinv', hmono⟩ := flowProcessNeighbor_inv g elevation st next w hinv hnext hw
    rw [List.foldl_cons]
    exact ih (fun x hx => hl x (List.mem_cons_of_mem w hx)) _ hinv' (hmono next hnext)

theorem flowLoop_inv (g : TGraph) (elevation : List ℚ) (hwf : g.WF) :
    ∀ (fuel : Nat) (st : FlowState), FlowInv g st →
      FlowInv g (flowLoop g elevation fuel st) := by
  intro fuel
  induction fuel with
  | zero => intro st hinv; exact hinv
  | succ n ih =>
    intro st hinv
    rw [flowLoop]
    cases hpop : pqPop st.openQ with
    | none => exact hinv
    | some p =>
      obtain ⟨⟨next, score⟩, rest⟩ := p
      have hperm := pqPop_perm st.openQ _ _ hpop
      have hmem : (next, score) ∈ st.openQ := hperm.mem_iff.2 (List.mem_cons_self _ _)
      obtain ⟨hlt, hseen⟩ := hinv.queueOk _ hmem
      have hinvRest : FlowInv g { st with openQ := rest } := by
        refine ⟨hinv.flowLen, hinv.seenLen, ?_, hinv.ranked⟩
        intro e he
        exact hinv.queueOk e (hperm.mem_iff.2 (List.mem_cons_of_mem _ he))
      refine ih _ (flowFold_inv g elevation next (g.adj next)
        (fun w hw => hwf.adjRange next hlt w hw) _ hinvRest hseen)

theorem countP_false_set_true (l : List Bool) (v : Nat)
    (hfalse : l.getD v false = false) (hv : v < l.length) :
    (l.set v true).countP (fun b => decide (b = false)) + 1 =
      l.countP (fun b => decide (b = false)) := by
  induction l generalizing v with
  | nil => simp at hv
  | cons b t ih =>
    cases v with
    | zero =>
      simp [List.getD] at hfalse
      simp [List.set, List.countP_cons, hfalse]
    | succ j =>
      simp only [List.getD_cons_succ] at hfalse
      simp only [List.set, List.countP_cons]
      have := ih j hfalse (by simpa using hv)
      omega

theorem flowProcessNeighbor_measure (g : TGraph) (elevation : List ℚ)
    (st : FlowState) (next neighbor : Nat) (hsl : st.seen.length = g.n)
    (hnb : neighbor < g.n) :
    flowMeasure (flowProcessNeighbor elevation next st neighbor) ≤ flowMeasure st := by
  rw [flowProcessNeighbor]
  by_cases hseen : st.seen.getD neighbor false = true
  · rw [if_pos hseen]
  · have hseenF : st.seen.getD neighbor false = false := by
      cases h : st.seen.getD neighbor false
      · rfl
      · exact absurd h hseen
    rw [if_neg hseen]
    rw [flowMeasure, flowMeasure]
    simp only [pqPush, List.length_cons]
    have := countP_false_set_true st.seen neighbor hseenF (by rw [hsl]; exact hnb)
    omega

theorem flowFold_measure (g : TGraph) (elevation : List ℚ) (next : Nat) :
    ∀ (l : List Nat), (∀ w ∈ l, w < g.n) → ∀ (st : FlowState),
      FlowInv g st → st.seen.getD next false = true →
      flowMeasure (l.foldl (flowProcessNeighbor elevation next) st) ≤ flowMeasure st := by
  intro l
  induction l with
  | nil => intro _ st _ _; exact le_rfl
  | cons w rest ih =>
    intro hl st hinv hnext
    have hw : w < g.n := hl w (List.mem_cons_self w rest)
    obtain ⟨hinv', hmono⟩ := flowProcessNeighbor_inv g elevation st next w hinv hnext hw
    rw [List.foldl_cons]
    exact le_trans
      (ih (fun x hx => hl x (List.mem_cons_of_mem w hx)) _ hinv' (hmono next hnext))
      (flowProcessNeighbor_measure g elevation st next w hinv.seenLen hw)

/-- The flow loop drains its queue whenever the fuel exceeds the decreasing
measure, as the fuel chosen by `generateFlow` does: the embedded run is the
source loop run to completion. -/
theorem flowLoop_run (g : TGraph) (elevation : List ℚ) (hwf : g.WF) :
    ∀ (fuel : Nat) (st : FlowState), FlowInv g st → flowMeasure st < fuel →
      (flowLoop g elevation fuel st).openQ = [] := by
  intro fuel
  induction fuel with
  | zero => intro st _ hm; omega
  | succ f ih =>
    intro st hinv hm
    rw [flowLoop]
    cases hpop : pqPop st.openQ with
    | none => exact (pqPop_eq_none_iff _).1 hpop
    | some p =>
      obtain ⟨⟨next, score⟩, rest⟩ := p
      dsimp only
      have hperm := pqPop_perm st.openQ _ _ hpop
      have hmem : (next, score) ∈ st.openQ := hperm.mem_iff.2 (List.mem_cons_self _ _)
      obtain ⟨hlt, hseen⟩ := hinv.queueOk _ hmem
      have hqlen : st.openQ.length = rest.length + 1 := by
        have := hperm.length_eq
        simpa using this
      have hinvRest : FlowInv g { st with openQ := rest } := by
        refine ⟨hinv.flowLen, hinv.seenLen, ?_, hinv.ranked⟩
        intro e he
        exact hinv.queueOk e (hperm.mem_iff.2 (List.mem_cons_of_mem _ he))
      have hmRest : flowMeasure { st with openQ := rest } < f := by
        rw [flowMeasure] at hm ⊢
        simp only at hm ⊢
        omega
      refine ih _ (flowFold_inv g elevation next (g.adj next)
        (fun w hw => hwf.adjRange next hlt w hw) _ hinvRest hseen) ?_
      exact lt_of_le_of_lt
        (flowFold_measure g elevation next (g.adj next)
          (fun w hw => hwf.adjRange next hlt w hw) _ hinvRest hseen)
        hmRest

/-- The flow array produced by `generate_flow` carries a strictly decreasing,
`n`-bounded ranking along flow targets. -/
theorem generateFlow_ranked (g : TGraph) (elevation : List ℚ) (hwf : g.WF) :
    RankedFlow g.n (generateFlow g elevation) := by
  have hinv := flowLoop_inv g elevation hwf (flowMeasure (flowSeed g elevation) + 1)
    (flowSeed g elevation) (flowSeed_inv g elevation)
  obtain ⟨hfl, hsl, hq, r, hr1, hr2⟩ := hinv
  refine ⟨r, ?_⟩
  intro v t hvt
  obtain ⟨h1, _, h3, h4, h5⟩ := hr2 v t hvt
  refine ⟨h4, h5, h3, ?_⟩
  calc r v < _ := hr1 v h1
    _ ≤ _ := countP_true_le_length _
    _ = g.n := hsl

/-- Iterating the flow-target chain, as in `traverse_flow_graph`'s `next`:
stay put when the flow target is `none`. -/
def flowIterate (flow : List (Option Nat)) : Nat → Nat → Nat
  | 0, v => v
  | k + 1, v =>
    match flow.getD v none with
    | none => v
    | some t => flowIterate flow k t

theorem rankedFlow_terminates (n : Nat) (flow : List (Option Nat))
    (hr : RankedFlow n flow) (v : Nat) :
    ∃ k, k ≤ n ∧ flow.getD (flowIterate flow k v) none = none := by
  obtain ⟨r, hrp⟩ := hr
  have main : ∀ (m v : Nat), (flow.getD v none = none ∨ r v ≤ m) →
      ∃ k, k ≤ m + 1 ∧ flow.getD (flowIterate flow k v) none = none := by
    intro m
    induction m with
    | zero =>
      intro v hv
      rcases hv with hv | hv
      · exact ⟨0, by omega, hv⟩
      · cases hflow : flow.getD v none with
        | none => exact ⟨0, by omega, hflow⟩
        | some t =>
          obtain ⟨_, _, h3, _⟩ := hrp v t hflow
          omega
    | succ m ih =>
      intro v hv
      cases hflow : flow.getD v none with
      | none => exact ⟨0, by omega, hflow⟩
      | some t =>
        have hrv : r v ≤ m + 1 := by
          rcases hv with hv | hv
          · rw [hv] at hflow; exact absurd hflow (by simp)
          · exact hv
        obtain ⟨_, _, h3, _⟩ := hrp v t hflow
        obtain ⟨k, hk, hk2⟩ := ih t (Or.inr (by omega))
        refine ⟨k + 1, by omega, ?_⟩
        have : flowIterate flow (k + 1) v = flowIterate flow k t := by
          rw [flowIterate, hflow]
        rw [this]
        exact hk2
  cases hflow : flow.getD v none with
  | none => exact ⟨0, by omega, hflow⟩
  | some t =>
    obtain ⟨_, _, _, h4⟩ := hrp v t hflow
    obtain ⟨k, hk, hk2⟩ := main (r v) v (Or.inr le_rfl)
    exact ⟨k, by omega, hk2⟩

/-- C4: for every well-formed graph and elevation array, following the
flow-target chain produced by `generate_flow` from any vertex reaches, within
at most `vertex_count` steps, a vertex whose flow target is `none` — the flow
relation contains no cycle. -/
theorem claim4_flow_acyclic (g : TGraph) (elevation : List ℚ) (hwf : g.WF) (v : Nat) :
    ∃ k, k ≤ g.n ∧
      (generateFlow g elevation).getD
        (flowIterate (generateFlow g elevation) k v) none = none :=
  rankedFlow_terminates g.n (generateFlow g elevation)
    (generateFlow_ranked g elevation hwf) v

/-- Small concrete graph used by the witnesses: a path of three vertices whose
first vertex is the boundary. -/
def pathGraph3 : TGraph where
  vertices := [⟨0, 0⟩, ⟨1, 0⟩, ⟨2, 0⟩]
  vertexType := [.Boundary, .Interior, .Interior]
  adj := fun v => if v = 0 then [1] else if v = 1 then [0, 2] else if v = 2 then [1] else []
  icvF := fun v => if v = 1 then some (0, 2, 2) else if v = 2 then some (1, 1, 1) else none

theorem pathGraph3_wf : pathGraph3.WF := by
  constructor
  · rfl
  · intro v hv w hw
    have hv3 : v < 3 := hv
    interval_cases v <;> simp [pathGraph3, TGraph.n] at hw ⊢ <;> omega

/-- Witness for C4 at the concrete path graph with elevations `[0, 3, 7]`,
instantiated at vertex `2`. -/
theorem claim4_witness :
    pathGraph3.WF ∧
    (∃ k, k ≤ pathGraph3.n ∧
      (generateFlow pathGraph3 [0, 3, 7]).getD
        (flowIterate (generateFlow pathGraph3 [0, 3, 7]) k 2) none = none) :=
  ⟨pathGraph3_wf, claim4_flow_acyclic pathGraph3 [0, 3, 7] pathGraph3_wf 2⟩

/-! ### Flux generation (`erosion/generate_flux.rs`, claim C6) -/

/-- The flow chain from `start`, as yielded by `traverse_flow_graph`'s
iterator: the start vertex itself, then the flow targets in order.  The
source iterator is unbounded; the fuel `g.n + 1` used by `generateFlux`
suffices for every flow array produced by `generate_flow`, whose chains reach
a `none` flow target within `n` steps (claim C4). -/
def traverseFlowGraph (flow : List (Option Nat)) : Nat → Nat → List Nat
  | 0, _ => []
  | fuel + 1, v =>
    v ::
      (match flow.getD v none with
       | none => []
       | some t => traverseFlowGraph flow fuel t)

/-- In-place `flux[i] += a` on the model. -/
def addAt (l : List ℚ) (i : Nat) (a : ℚ) : List ℚ :=
  l.set i (l.getD i 0 + a)

/-- The source's `generate_flux`: initialize every vertex to the uniform
rainfall `1 / vertex_count`, then walk every interior vertex's flow chain and
add the rainfall to every visited vertex. -/
def generateFlux (g : TGraph) (flow : List (Option Nat)) : List ℚ :=
  let rainfall : ℚ := 1 / (g.n : ℚ)
  g.interiorIdx.foldl
    (fun flux v =>
      (traverseFlowGraph flow (g.n + 1) v).foldl (fun fl x => addAt fl x rainfall) flux)
    (List.replicate g.n rainfall)

theorem addAt_length (l : List ℚ) (i : Nat) (a : ℚ) :
    (addAt l i a).length = l.length := by
  simp [addAt]

theorem addAt_getD (l : List ℚ) (i : Nat) (a : ℚ) (j : Nat) (hj : j < l.length) :
    (addAt l i a).getD j 0 = l.getD j 0 + (if i = j then a else 0) := by
  by_cases hij : i = j
  · subst hij
    rw [addAt, getD_set_self _ _ _ _ hj, if_pos rfl]
  · rw [addAt, getD_set_ne _ _ _ _ _ hij, if_neg hij]
    ring

theorem chainFold_length (a : ℚ) (c : List Nat) (fl : List ℚ) :
    (c.foldl (fun fl x => addAt fl x a) fl).length = fl.length := by
  induction c generalizing fl with
  | nil => rfl
  | cons x rest ih => rw [List.foldl_cons, ih, addAt_length]

theorem chainFold_getD (a : ℚ) (c : List Nat) (fl : List ℚ) (j : Nat)
    (hj : j < fl.length) :
    (c.foldl (fun fl x => addAt fl x a) fl).getD j 0 =
      fl.getD j 0 + a * (c.count j : ℚ) := by
  induction c generalizing fl with
  | nil => simp
  | cons x rest ih =>
    rw [List.foldl_cons, ih _ (by rw [addAt_length]; exact hj),
      addAt_getD _ _ _ _ hj]
    by_cases hx : x = j
    · subst hx
      rw [List.count_cons_self, if_pos rfl]
      push_cast
      ring
    · rw [List.count_cons_of_ne (fun hc => hx hc.symm), if_neg hx]
      ring

/-- A list is a proper flow chain: consecutive entries follow the flow
targets and the final entry has no flow target. -/
def chainOk (flow : List (Option Nat)) : List Nat → Prop
  | [] => True
  | [v] => flow.getD v none = none
  | v :: w :: rest => flow.getD v none = some w ∧ chainOk flow (w :: rest)

theorem chainOk_tail (flow : List (Option Nat)) (w : Nat) (rest : List Nat)
    (h : chainOk flow (w :: rest)) : chainOk flow rest := by
  match rest with
  | [] => trivial
  | x :: rest' =>
    exact (h : flow.getD w none = some x ∧ chainOk flow (x :: rest')).2

theorem traverse_chainOk (flow : List (Option Nat)) :
    ∀ (fuel v k : Nat), k < fuel →
      flow.getD (flowIterate flow k v) none = none →
      chainOk flow (traverseFlowGraph flow fuel v) := by
  intro fuel
  induction fuel with
  | zero => intro v k hk _; omega
  | succ f ih =>
    intro v k hk hnone
    cases hflow : flow.getD v none with
    | none =>
      have htr : traverseFlowGraph flow (f + 1) v = [v] := by
        rw [traverseFlowGraph, hflow]
      rw [htr]
      show flow.getD v none = none
      exact hflow
    | some t =>
      have hk0 : k ≠ 0 := by
        intro hc
        subst hc
        rw [flowIterate] at hnone
        rw [hnone] at hflow
        simp at hflow
      obtain ⟨k', rfl⟩ : ∃ k', k = k' + 1 := ⟨k - 1, by omega⟩
      have hiter : flowIterate flow (k' + 1) v = flowIterate flow k' t := by
        rw [flowIterate, hflow]
      rw [hiter] at hnone
      cases f with
      | zero => omega
      | succ f' =>
        have hchain := ih t k' (by omega) hnone
        have htr : traverseFlowGraph flow (f' + 1 + 1) v =
            v :: traverseFlowGraph flow (f' + 1) t := by
          rw [traverseFlowGraph, hflow]
        have htr2 : traverseFlowGraph flow (f' + 1) t =
            t ::
              (match flow.getD t none with
               | none => []
               | some u => traverseFlowGraph flow f' u) := by
          rw [traverseFlowGraph]
        rw [htr, htr2]
        rw [htr2] at hchain
        exact ⟨hflow, hchain⟩

theorem chainOk_count_le (flow : List (Option Nat)) (v t : Nat)
    (hvt : flow.getD v none = some t) (hne : v ≠ t) :
    ∀ (m : Nat) (c : List Nat), c.length ≤ m → chainOk flow c →
      c.count v ≤ c.count t := by
  intro m
  induction m with
  | zero =>
    intro c hc _
    have : c = [] := List.length_eq_zero.1 (Nat.le_zero.1 hc)
    subst this
    simp
  | succ m ih =>
    intro c hc hok
    match c with
    | [] => simp
    | [w] =>
      have hwv : v ≠ w := by
        intro hcw
        subst hcw
        have hokw : flow.getD v none = none := hok
        rw [hokw] at hvt
        simp at hvt
      rw [List.count_cons_of_ne hwv, List.count_nil]
      exact Nat.zero_le _
    | w :: w' :: rest =>
      have hw : flow.getD w none = some w' :=
        (hok : flow.getD w none = some w' ∧ chainOk flow (w' :: rest)).1
      have hok' : chainOk flow (w' :: rest) := chainOk_tail flow w _ hok
      by_cases hwv : w = v
      · subst hwv
        rw [hw] at hvt
        have hwt : w' = t := Option.some.inj hvt
        subst hwt
        have hokrest : chainOk flow rest := chainOk_tail flow _ rest hok'
        have hcount := ih rest (by simp only [List.length_cons] at hc ⊢; omega) hokrest
        rw [List.count_cons_self, List.count_cons_of_ne hne,
          List.count_cons_of_ne (fun hc2 => hne hc2.symm), List.count_cons_self]
        omega
      · have hcount := ih (w' :: rest) (by simp only [List.length_cons] at hc ⊢; omega) hok'
        rw [List.count_cons_of_ne (fun hcc => hwv hcc.symm)]
        by_cases hwt : w = t
        · subst hwt
          rw [List.count_cons_self]
          omega
        · rw [List.count_cons_of_ne (fun hcc => hwt hcc.symm)]
          exact hcount

theorem fluxFold_inv (flow : List (Option Nat)) (a : ℚ) (ha : 0 ≤ a)
    (N n : Nat)
    (hchainAll : ∀ u, chainOk flow (traverseFlowGraph flow N u)) :
    ∀ (l : List Nat) (fl : List ℚ), fl.length = n →
      (l.foldl (fun flux u =>
        (traverseFlowGraph flow N u).foldl (fun fl x => addAt fl x a) flux) fl).length = n ∧
      (∀ j, j < n → fl.getD j 0 ≤
        (l.foldl (fun flux u =>
          (traverseFlowGraph flow N u).foldl (fun fl x => addAt fl x a) flux) fl).getD j 0) ∧
      (∀ v t, flow.getD v none = some t → v ≠ t → v < n → t < n →
        fl.getD t 0 - fl.getD v 0 ≤
          (l.foldl (fun flux u =>
            (traverseFlowGraph flow N u).foldl (fun fl x => addAt fl x a) flux) fl).getD t 0 -
          (l.foldl (fun flux u =>
            (traverseFlowGraph flow N u).foldl (fun fl x => addAt fl x a) flux) fl).getD v 0) := by
  intro l
  induction l with
  | nil => intro fl hfl; exact ⟨hfl, fun _ _ => le_rfl, fun _ _ _ _ _ _ => le_rfl⟩
  | cons u rest ih =>
    intro fl hfl
    rw [List.foldl_cons]
    set c := traverseFlowGraph flow N u with hc
    set fl' := c.foldl (fun fl x => addAt fl x a) fl with hfl2
    have hlen2 : fl'.length = n := by rw [hfl2, chainFold_length, hfl]
    obtain ⟨ih1, ih2, ih3⟩ := ih fl' hlen2
    refine ⟨ih1, ?_, ?_⟩
    · intro j hj
      refine le_trans ?_ (ih2 j hj)
      rw [hfl2, chainFold_getD _ _ _ _ (by rw [hfl]; exact hj)]
      have : 0 ≤ a * (c.count j : ℚ) := by positivity
      linarith
    · intro v t hvt hne hv ht
      refine le_trans ?_ (ih3 v t hvt hne hv ht)
      rw [hfl2, chainFold_getD _ _ _ _ (by rw [hfl]; exact ht),
        chainFold_getD _ _ _ _ (by rw [hfl]; exact hv)]
      have hcount : c.count v ≤ c.count t :=
        chainOk_count_le flow v t hvt hne c.length c le_rfl (hchainAll u)
      have : a * (c.count v : ℚ) ≤ a * (c.count t : ℚ) := by
        apply mul_le_mul_of_nonneg_left _ ha
        exact_mod_cast hcount
      linarith

/-- C6: over the flow array produced by `generate_flow`, every entry of the
flux array is at least the uniform rainfall constant `1 / vertex_count`, and
flux is monotonically non-decreasing along every flow chain. -/
theorem claim6_flux (g : TGraph) (elevation : List ℚ) (hwf : g.WF) :
    (∀ i, i < g.n →
      1 / (g.n : ℚ) ≤ (generateFlux g (generateFlow g elevation)).getD i 0) ∧
    (∀ v t, (generateFlow g elevation).getD v none = some t →
      (generateFlux g (generateFlow g elevation)).getD v 0 ≤
        (generateFlux g (generateFlow g elevation)).getD t 0) := by
  have hr := generateFlow_ranked g elevation hwf
  set flow := generateFlow g elevation with hflow
  set rainfall : ℚ := 1 / (g.n : ℚ) with hrain
  have ha : 0 ≤ rainfall := by positivity
  have hchainAll : ∀ u, chainOk flow (traverseFlowGraph flow (g.n + 1) u) := by
    intro u
    obtain ⟨k, hk, hk2⟩ := rankedFlow_terminates g.n flow hr u
    exact traverse_chainOk flow (g.n + 1) u k (by omega) hk2
  obtain ⟨h1, h2, h3⟩ := fluxFold_inv flow rainfall ha (g.n + 1) g.n hchainAll
    g.interiorIdx (List.replicate g.n rainfall) (by simp)
  constructor
  · intro i hi
    have hinit : (List.replicate g.n rainfall).getD i 0 = rainfall := by
      rw [List.getD_eq_getElem _ _ (by simpa using hi)]
      simp
    have := h2 i hi
    rw [hinit] at this
    exact this
  · intro v t hvt
    obtain ⟨r, hrp⟩ := hr
    obtain ⟨hv, ht, hlt, _⟩ := hrp v t hvt
    have hne : v ≠ t := by
      intro hc
      subst hc
      omega
    have hinitv : (List.replicate g.n rainfall).getD v 0 = rainfall := by
      rw [List.getD_eq_getElem _ _ (by simpa using hv)]
      simp
    have hinitt : (List.replicate g.n rainfall).getD t 0 = rainfall := by
      rw [List.getD_eq_getElem _ _ (by simpa using ht)]
      simp
    have := h3 v t hvt hne hv ht
    rw [hinitv, hinitt] at this
    have hgoal := this
    rw [generateFlux]
    linarith

/-- Witness for C6 at the concrete path graph with elevations `[0, 3, 7]`. -/
theorem claim6_witness :
    pathGraph3.WF ∧
    ((∀ i, i < pathGraph3.n →
      1 / (pathGraph3.n : ℚ) ≤
        (generateFlux pathGraph3 (generateFlow pathGraph3 [0, 3, 7])).getD i 0) ∧
    (∀ v t, (generateFlow pathGraph3 [0, 3, 7]).getD v none = some t →
      (generateFlux pathGraph3 (generateFlow pathGraph3 [0, 3, 7])).getD v 0 ≤
        (generateFlux pathGraph3 (generateFlow pathGraph3 [0, 3, 7])).getD t 0)) :=
  ⟨pathGraph3_wf, claim6_flux pathGraph3 [0, 3, 7] pathGraph3_wf⟩

/-! ### Region growth (`regions.rs`, claims C1 and C7) -/

/-- The terrain state consumed by the region partitioner: the graph, the
per-vertex hydrology arrays and the domain extent. -/
structure TerrainQ where
  graph : TGraph
  elevation : List ℚ
  flux : List ℚ
  extent : RectQ

/-- The source's `calculate_travel_cost` between vertices `a` and `b`:
water-crossing and coast-crossing penalties, otherwise distance scaled by a
slope term (uphill deltas divided by 10) and a river term (`100 * sqrt`
of the flux at `a`). -/
def calculateTravelCost (t : TerrainQ) (a b : Nat) : ℚ :=
  let posA := t.graph.vertices.getD a ⟨0, 0⟩
  let posB := t.graph.vertices.getD b ⟨0, 0⟩
  let deltaPos := distance posA posB
  let elevA := t.elevation.getD a 0
  let elevB := t.elevation.getD b 0
  if elevA < 0 then deltaPos * 100
  else if decide (0 ≤ elevA) ≠ decide (0 ≤ elevB) then deltaPos * 1000
  else
    let deltaElev := elevB - elevA
    let deltaElev := if deltaElev > 0 then deltaElev / 10 else deltaElev
    let costElev := (1 / 4) * (deltaElev / deltaPos) ^ 2
    let costRiver := 100 * sqrtQ (t.flux.getD a 0)
    deltaPos * (1 + costElev + costRiver)

/-- State of the `generate_regions` search: the per-vertex `nearest_city`
assignments and the priority queue of `(city, vert)` pairs. -/
structure RegionState where
  nearest : List (Option Nat)
  queue : List ((Nat × Nat) × ℚ)

/-- The `for vert in connected_vertices` push loop of `generate_regions`: each
neighbor is enqueued keyed by the negative travel cost from the origin city
directly to that neighbor. -/
def pushNeighborCosts (t : TerrainQ) (city vert : Nat)
    (q : List ((Nat × Nat) × ℚ)) : List ((Nat × Nat) × ℚ) :=
  (t.graph.adj vert).foldl
    (fun q w => pqPush q (city, w) (-(calculateTravelCost t city w))) q

/-- Seeding of `generate_regions`: every city is assigned to itself and its
neighbors are enqueued. -/
def regionSeed (t : TerrainQ) (cities : List Nat) : RegionState :=
  cities.foldl
    (fun st city =>
      { nearest := st.nearest.set city (some city),
        queue := pushNeighborCosts t city city st.queue })
    { nearest := List.replicate t.graph.n none, queue := [] }

/-- The `while let Some(...) = queue.pop()` loop of `generate_regions`: pop a
pair, skip it when the candidate already has an assigned region, otherwise
assign the candidate to the pair's origin city and enqueue its neighbors. -/
def regionLoop (t : TerrainQ) : Nat → RegionState → RegionState
  | 0, st => st
  | fuel + 1, st =>
    match pqPop st.queue with
    | none => st
    | some ((cv, _s), rest) =>
      if (st.nearest.getD cv.2 none).isSome then
        regionLoop t fuel { st with queue := rest }
      else
        regionLoop t fuel
          { nearest := st.nearest.set cv.2 (some cv.1),
            queue := pushNeighborCosts t cv.1 cv.2 rest }

/-- Largest adjacency-list length over the graph's vertices. -/
def TGraph.maxDeg (g : TGraph) : Nat :=
  ((List.range g.n).map (fun v => (g.adj v).length)).foldr max 0

/-- Decreasing measure of the region loop: queue size plus `maxDeg + 1` per
unassigned vertex (a pop costs one; an assignment removes one unassigned
vertex and pushes at most `maxDeg` entries). -/
def regionMeasure (t : TerrainQ) (st : RegionState) : Nat :=
  st.queue.length + (t.graph.maxDeg + 1) * (st.nearest.countP (fun o => o.isNone))

/-- The final `region[i] = option_city.unwrap()` loop of `generate_regions`:
`none` models the panic on an unassigned vertex. -/
def unwrapAll : List (Option Nat) → Option (List Nat)
  | [] => some []
  | none :: _ => none
  | some c :: rest => (unwrapAll rest).map (fun l => c :: l)

/-- The source's `generate_regions` (composed with the final unwrap loop);
the fuel exceeds the loop's strictly decreasing measure, so the loop always
drains the queue (`regionLoop_run`). -/
def generateRegionsOpt (t : TerrainQ) (cities : List Nat) : Option (List Nat) :=
  let st := regionSeed t cities
  unwrapAll (regionLoop t (regionMeasure t st + 1) st).nearest

theorem foldl_cons_subset {β : Type} (g : Nat → β) :
    ∀ (l : List Nat) (q : List β) (e : β), e ∈ q →
      e ∈ l.foldl (fun q w => g w :: q) q := by
  intro l
  induction l with
  | nil => intro q e he; exact he
  | cons x rest ih =>
    intro q e he
    rw [List.foldl_cons]
    exact ih _ _ (List.mem_cons_of_mem _ he)

theorem foldl_cons_mem_new {β : Type} (g : Nat → β) :
    ∀ (l : List Nat) (q : List β) (w : Nat), w ∈ l →
      g w ∈ l.foldl (fun q w => g w :: q) q := by
  intro l
  induction l with
  | nil => intro q w hw; simp at hw
  | cons x rest ih =>
    intro q w hw
    rw [List.foldl_cons]
    rcases List.mem_cons.1 hw with hx | hx
    · subst hx
      exact foldl_cons_subset g rest _ _ (List.mem_cons_self _ _)
    · exact ih _ _ hx

theorem foldl_cons_mem {β : Type} (g : Nat → β) :
    ∀ (l : List Nat) (q : List β) (e : β),
      e ∈ l.foldl (fun q w => g w :: q) q →
      e ∈ q ∨ ∃ w ∈ l, e = g w := by
  intro l
  induction l with
  | nil => intro q e he; exact Or.inl he
  | cons x rest ih =>
    intro q e he
    rw [List.foldl_cons] at he
    rcases ih _ _ he with hq | ⟨w, hw, hew⟩
    · rcases List.mem_cons.1 hq with hq | hq
      · exact Or.inr ⟨x, List.mem_cons_self _ _, hq⟩
      · exact Or.inl hq
    · exact Or.inr ⟨w, List.mem_cons_of_mem _ hw, hew⟩

theorem foldl_cons_length {β : Type} (g : Nat → β) :
    ∀ (l : List Nat) (q : List β),
      (l.foldl (fun q w => g w :: q) q).length = q.length + l.length := by
  intro l
  induction l with
  | nil => intro q; simp
  | cons x rest ih =>
    intro q
    rw [List.foldl_cons, ih]
    simp
    omega

theorem pushNeighborCosts_eq_foldl (t : TerrainQ) (city vert : Nat)
    (q : List ((Nat × Nat) × ℚ)) :
    pushNeighborCosts t city vert q =
      (t.graph.adj vert).foldl
        (fun q w => ((city, w), -(calculateTravelCost t city w)) :: q) q := rfl

theorem pushNeighborCosts_subset (t : TerrainQ) (city vert : Nat)
    (q : List ((Nat × Nat) × ℚ)) (e : (Nat × Nat) × ℚ) (he : e ∈ q) :
    e ∈ pushNeighborCosts t city vert q := by
  rw [pushNeighborCosts_eq_foldl]
  exact foldl_cons_subset _ _ _ _ he

theorem pushNeighborCosts_mem_new (t : TerrainQ) (city vert : Nat)
    (q : List ((Nat × Nat) × ℚ)) (w : Nat) (hw : w ∈ t.graph.adj vert) :
    ((city, w), -(calculateTravelCost t city w)) ∈ pushNeighborCosts t city vert q := by
  rw [pushNeighborCosts_eq_foldl]
  exact foldl_cons_mem_new _ _ _ _ hw

theorem pushNeighborCosts_mem (t : TerrainQ) (city vert : Nat)
    (q : List ((Nat × Nat) × ℚ)) (e : (Nat × Nat) × ℚ)
    (he : e ∈ pushNeighborCosts t city vert q) :
    e ∈ q ∨ ∃ w ∈ t.graph.adj vert, e = ((city, w), -(calculateTravelCost t city w)) := by
  rw [pushNeighborCosts_eq_foldl] at he
  exact foldl_cons_mem _ _ _ _ he

theorem pushNeighborCosts_length (t : TerrainQ) (city vert : Nat)
    (q : List ((Nat × Nat) × ℚ)) :
    (pushNeighborCosts t city vert q).length = q.length + (t.graph.adj vert).length := by
  rw [pushNeighborCosts_eq_foldl]
  exact foldl_cons_length _ _ _

theorem deg_le_maxDeg (g : TGraph) (v : Nat) (hv : v < g.n) :
    (g.adj v).length ≤ g.maxDeg := by
  rw [TGraph.maxDeg]
  have hmem : (g.adj v).length ∈ (List.range g.n).map (fun v => (g.adj v).length) :=
    List.mem_map.2 ⟨v, List.mem_range.2 hv, rfl⟩
  generalize (List.range g.n).map (fun v => (g.adj v).length) = l at hmem
  induction l with
  | nil => simp at hmem
  | cons x rest ih =>
    rw [List.foldr_cons]
    rcases List.mem_cons.1 hmem with hx | hx
    · rw [hx]; exact le_max_left _ _
    · exact le_trans (ih hx) (le_max_right _ _)


/-- Loop invariant of the region-growth search. -/
structure RegionInv (t : TerrainQ) (cities : List Nat) (st : RegionState) : Prop where
  lenN : st.nearest.length = t.graph.n
  queueOk : ∀ e ∈ st.queue, e.1.2 < t.graph.n ∧ e.1.1 ∈ cities
  citySelf : ∀ c ∈ cities, st.nearest.getD c none = some c
  valCities : ∀ v c, st.nearest.getD v none = some c → c ∈ cities
  frontier : ∀ a, a < t.graph.n → (st.nearest.getD a none).isSome →
    ∀ w ∈ t.graph.adj a, st.nearest.getD w none = none →
      ∃ c s, ((c, w), s) ∈ st.queue

theorem regionSeedAux (t : TerrainQ) (cities : List Nat) (hwf : t.graph.WF) :
    ∀ (l : List Nat), (∀ c ∈ l, c < t.graph.n) → (∀ c ∈ l, c ∈ cities) →
      ∀ (st : RegionState), st.nearest.length = t.graph.n →
      (∀ e ∈ st.queue, e.1.2 < t.graph.n ∧ e.1.1 ∈ cities) →
      (∀ v c, st.nearest.getD v none = some c → c ∈ cities ∧ c = v) →
      (∀ a, a < t.graph.n → (st.nearest.getD a none).isSome →
        ∀ w ∈ t.graph.adj a, ∃ c s, ((c, w), s) ∈ st.queue) →
      ((l.foldl
        (fun st city =>
          { nearest := st.nearest.set city (some city),
            queue := pushNeighborCosts t city city st.queue }) st).nearest.length = t.graph.n ∧
       (∀ e ∈ (l.foldl
        (fun st city =>
          { nearest := st.nearest.set city (some city),
            queue := pushNeighborCosts t city city st.queue }) st).queue,
          e.1.2 < t.graph.n ∧ e.1.1 ∈ cities) ∧
       (∀ v, st.nearest.getD v none = some v →
          (l.foldl
            (fun st city =>
              { nearest := st.nearest.set city (some city),
                queue := pushNeighborCosts t city city st.queue }) st).nearest.getD v none = some v) ∧
       (∀ c ∈ l,
          (l.foldl
            (fun st city =>
              { nearest := st.nearest.set city (some city),
                queue := pushNeighborCosts t city city st.queue }) st).nearest.getD c none = some c) ∧
       (∀ v c, (l.foldl
            (fun st city =>
              { nearest := st.nearest.set city (some city),
                queue := pushNeighborCosts t city city st.queue }) st).nearest.getD v none = some c →
          c ∈ cities ∧ c = v) ∧
       (∀ a, a < t.graph.n →
          ((l.foldl
            (fun st city =>
              { nearest := st.nearest.set city (some city),
                queue := pushNeighborCosts t city city st.queue }) st).nearest.getD a none).isSome →
          ∀ w ∈ t.graph.adj a, ∃ c s, ((c, w), s) ∈
            (l.foldl
              (fun st city =>
                { nearest := st.nearest.set city (some city),
                  queue := pushNeighborCosts t city city st.queue }) st).queue)) := by
  intro l
  induction l with
  | nil =>
    intro _ _ st h1 h2 h5 h6
    exact ⟨h1, h2, fun v hv => hv, fun c hc => absurd hc (List.not_mem_nil c), h5, h6⟩
  | cons city rest ih =>
    intro hlr hlc st h1 h2 h5 h6
    have hcity : city < t.graph.n := hlr city (List.mem_cons_self _ _)
    have hcityc : city ∈ cities := hlc city (List.mem_cons_self _ _)
    have hcs : city < st.nearest.length := by rw [h1]; exact hcity
    rw [List.foldl_cons]
    have hq2 : ∀ e ∈ pushNeighborCosts t city city st.queue,
        e.1.2 < t.graph.n ∧ e.1.1 ∈ cities := by
      intro e he
      rcases pushNeighborCosts_mem t city city st.queue e he with hq | ⟨w, hw, hew⟩
      · exact h2 e hq
      · subst hew
        exact ⟨hwf.adjRange city hcity w hw, hcityc⟩
    have h5' : ∀ v c,
        (st.nearest.set city (some city)).getD v none = some c → c ∈ cities ∧ c = v := by
      intro v c hvc
      by_cases hcv : city = v
      · subst hcv
        rw [getD_set_self _ _ _ _ hcs] at hvc
        have : c = city := by injection hvc with h; exact h.symm
        subst this
        exact ⟨hcityc, rfl⟩
      · rw [getD_set_ne _ _ _ _ _ hcv] at hvc
        exact h5 v c hvc
    have h6' : ∀ a, a < t.graph.n →
        ((st.nearest.set city (some city)).getD a none).isSome →
        ∀ w ∈ t.graph.adj a, ∃ c s, ((c, w), s) ∈ pushNeighborCosts t city city st.queue := by
      intro a ha hsome w hw
      by_cases hca : city = a
      · subst hca
        exact ⟨city, -(calculateTravelCost t city w),
          pushNeighborCosts_mem_new t city city _ w hw⟩
      · rw [getD_set_ne _ _ _ _ _ hca] at hsome
        obtain ⟨c, s, hcsm⟩ := h6 a ha hsome w hw
        exact ⟨c, s, pushNeighborCosts_subset _ _ _ _ _ hcsm⟩
    obtain ⟨g1, g2, g3, g4, g5, g6⟩ := ih (fun c hc => hlr c (List.mem_cons_of_mem _ hc))
      (fun c hc => hlc c (List.mem_cons_of_mem _ hc))
      ⟨st.nearest.set city (some city), pushNeighborCosts t city city st.queue⟩
      (by simpa using h1) hq2 h5' h6'
    refine ⟨g1, g2, ?_, ?_, g5, g6⟩
    · intro v hv
      refine g3 v ?_
      show (st.nearest.set city (some city)).getD v none = some v
      by_cases hcv : city = v
      · subst hcv
        exact getD_set_self _ _ _ _ hcs
      · rw [getD_set_ne _ _ _ _ _ hcv]
        exact hv
    · intro c hc
      rcases List.mem_cons.1 hc with hc | hc
      · subst hc
        refine g3 c ?_
        show (st.nearest.set c (some c)).getD c none = some c
        exact getD_set_self _ _ _ _ hcs
      · exact g4 c hc

theorem regionSeed_inv (t : TerrainQ) (cities : List Nat) (hwf : t.graph.WF)
    (hrange : ∀ c ∈ cities, c < t.graph.n) :
    RegionInv t cities (regionSeed t cities) := by
  have hrepl : ∀ v, (List.replicate t.graph.n (none : Option Nat)).getD v none = none := by
    intro v
    by_cases hc : v < t.graph.n
    · rw [List.getD_eq_getElem _ _ (by simpa using hc)]
      simp
    · rw [List.getD_eq_default _ _ (by simpa using Nat.le_of_not_lt hc)]
  obtain ⟨h1, h2, _, h4, h5, h6⟩ := regionSeedAux t cities hwf cities hrange (fun c hc => hc)
    ⟨List.replicate t.graph.n none, []⟩ (by simp) (by simp)
    (by intro v c hvc
        rw [hrepl v] at hvc
        simp at hvc)
    (by intro v hv hsome
        rw [hrepl v] at hsome
        simp at hsome)
  rw [regionSeed]
  refine ⟨h1, h2, h4, fun v c hvc => (h5 v c hvc).1, ?_⟩
  intro a ha hsome w hw _
  exact h6 a ha hsome w hw

theorem countP_set_some (l : List (Option Nat)) (v c : Nat)
    (hnone : l.getD v none = none) (hv : v < l.length) :
    (l.set v (some c)).countP (fun o => o.isNone) + 1 = l.countP (fun o => o.isNone) := by
  induction l generalizing v with
  | nil => simp at hv
  | cons b tail ih =>
    cases v with
    | zero =>
      simp [List.getD] at hnone
      simp [List.set, List.countP_cons, hnone]
    | succ j =>
      simp only [List.getD_cons_succ] at hnone
      simp only [List.set, List.countP_cons]
      have := ih j hnone (by simpa using hv)
      omega

theorem countP_none_pos (l : List (Option Nat)) (v : Nat)
    (hnone : l.getD v none = none) (hv : v < l.length) :
    0 < l.countP (fun o => o.isNone) := by
  refine List.countP_pos_iff.2 ⟨none, ?_, rfl⟩
  have hd : l.getD v none = l[v] := List.getD_eq_getElem l none hv
  rw [hd] at hnone
  rw [← hnone]
  exact List.getElem_mem hv

theorem regionLoop_run (t : TerrainQ) (cities : List Nat) (hwf : t.graph.WF) :
    ∀ (fuel : Nat) (st : RegionState), RegionInv t cities st →
      regionMeasure t st < fuel →
      RegionInv t cities (regionLoop t fuel st) ∧ (regionLoop t fuel st).queue = [] := by
  intro fuel
  induction fuel with
  | zero => intro st _ hm; omega
  | succ f ih =>
    intro st hinv hm
    rw [regionLoop]
    cases hpop : pqPop st.queue with
    | none => exact ⟨hinv, (pqPop_eq_none_iff _).1 hpop⟩
    | some p =>
      obtain ⟨⟨cv, sc⟩, rest⟩ := p
      dsimp only
      have hperm := pqPop_perm st.queue _ _ hpop
      have hmem : (cv, sc) ∈ st.queue := hperm.mem_iff.2 (List.mem_cons_self _ _)
      have hqlen : st.queue.length = rest.length + 1 := by
        have := hperm.length_eq
        simpa using this
      obtain ⟨hvlt, hccity⟩ := hinv.queueOk _ hmem
      have hrestmem : ∀ e ∈ rest, e ∈ st.queue :=
        fun e he => hperm.mem_iff.2 (List.mem_cons_of_mem _ he)
      by_cases hassigned : (st.nearest.getD cv.2 none).isSome
      · rw [if_pos hassigned]
        have hinv' : RegionInv t cities { st with queue := rest } := by
          refine ⟨hinv.lenN, fun e he => hinv.queueOk e (hrestmem e he),
            hinv.citySelf, hinv.valCities, ?_⟩
          intro a ha hsome w hw hwnone
          obtain ⟨c, s, hcs⟩ := hinv.frontier a ha hsome w hw hwnone
          have hne : ((c, w), s) ≠ ((cv, sc) : (Nat × Nat) × ℚ) := by
            intro hc
            have : w = cv.2 := by
              have := congrArg (fun e => e.1.2) hc
              simpa using this
            rw [← this] at hassigned
            rw [hwnone] at hassigned
            simp at hassigned
          rcases List.mem_cons.1 (hperm.mem_iff.1 hcs) with hc | hc
          · exact absurd hc hne
          · exact ⟨c, s, hc⟩
        have hm' : regionMeasure t { st with queue := rest } < f := by
          rw [regionMeasure] at hm ⊢
          simp only at hm ⊢
          omega
        exact ih _ hinv' hm'
      · rw [if_neg hassigned]
        have hnone : st.nearest.getD cv.2 none = none :=
          Option.not_isSome_iff_eq_none.1 hassigned
        have hvst : cv.2 < st.nearest.length := by rw [hinv.lenN]; exact hvlt
        have hinv' : RegionInv t cities
            { nearest := st.nearest.set cv.2 (some cv.1),
              queue := pushNeighborCosts t cv.1 cv.2 rest } := by
          refine ⟨by simpa using hinv.lenN, ?_, ?_, ?_, ?_⟩
          · intro e he
            rcases pushNeighborCosts_mem t cv.1 cv.2 rest e he with hq | ⟨w, hw, hew⟩
            · exact hinv.queueOk e (hrestmem e hq)
            · subst hew
              exact ⟨hwf.adjRange cv.2 hvlt w hw, hccity⟩
          · intro c hc
            have hcc : cv.2 ≠ c := by
              intro hceq
              have := hinv.citySelf c hc
              rw [← hceq, hnone] at this
              simp at this
            show (st.nearest.set cv.2 (some cv.1)).getD c none = some c
            rw [getD_set_ne _ _ _ _ _ hcc]
            exact hinv.citySelf c hc
          · intro v c hvc
            by_cases hcv : cv.2 = v
            · subst hcv
              rw [getD_set_self _ _ _ _ hvst] at hvc
              have : c = cv.1 := by injection hvc with h; exact h.symm
              subst this
              exact hccity
            · rw [getD_set_ne _ _ _ _ _ hcv] at hvc
              exact hinv.valCities v c hvc
          · intro a ha hsome w hw hwnone
            have hwnv : w ≠ cv.2 := by
              intro hceq
              subst hceq
              rw [getD_set_self _ _ _ _ hvst] at hwnone
              simp at hwnone
            rw [getD_set_ne _ _ _ _ _ (fun hc => hwnv hc.symm)] at hwnone
            by_cases hca : cv.2 = a
            · subst hca
              exact ⟨cv.1, -(calculateTravelCost t cv.1 w),
                pushNeighborCosts_mem_new t cv.1 cv.2 _ w hw⟩
            · rw [getD_set_ne _ _ _ _ _ hca] at hsome
              obtain ⟨c, s, hcs⟩ := hinv.frontier a ha hsome w hw hwnone
              have hne : ((c, w), s) ≠ ((cv, sc) : (Nat × Nat) × ℚ) := by
                intro hc
                have : w = cv.2 := by
                  have := congrArg (fun e => e.1.2) hc
                  simpa using this
                exact hwnv this
              rcases List.mem_cons.1 (hperm.mem_iff.1 hcs) with hc | hc
              · exact absurd hc hne
              · exact ⟨c, s, pushNeighborCosts_subset _ _ _ _ _ hc⟩
        have hm' : regionMeasure t
            { nearest := st.nearest.set cv.2 (some cv.1),
              queue := pushNeighborCosts t cv.1 cv.2 rest } < f := by
          have hdeg : (t.graph.adj cv.2).length ≤ t.graph.maxDeg := deg_le_maxDeg _ _ hvlt
          have hcnt := countP_set_some st.nearest cv.2 cv.1 hnone hvst
          have hpos := countP_none_pos st.nearest cv.2 hnone hvst
          have hql := pushNeighborCosts_length t cv.1 cv.2 rest
          rw [regionMeasure] at hm ⊢
          simp only at hm ⊢
          have hexp : (t.graph.maxDeg + 1) * List.countP (fun o => o.isNone) st.nearest =
              (t.graph.maxDeg + 1) *
                List.countP (fun o => o.isNone) (st.nearest.set cv.2 (some cv.1)) +
              (t.graph.maxDeg + 1) := by
            rw [← hcnt]
            ring
          rw [hexp] at hm
          rw [hql]
          omega
        exact ih _ hinv' hm'


theorem unwrapAll_some : ∀ (l : List (Option Nat)), (∀ o ∈ l, o.isSome) →
    ∃ res, unwrapAll l = some res ∧ res.length = l.length ∧
      ∀ v, v < l.length → l.getD v none = some (res.getD v 0) := by
  intro l
  induction l with
  | nil => intro _; exact ⟨[], rfl, rfl, fun v hv => by simp at hv⟩
  | cons o rest ih =>
    intro h
    have ho : o.isSome := h o (List.mem_cons_self _ _)
    obtain ⟨c, hc⟩ := Option.isSome_iff_exists.1 ho
    subst hc
    obtain ⟨res', h1, h2, h3⟩ := ih (fun x hx => h x (List.mem_cons_of_mem _ hx))
    refine ⟨c :: res', ?_, by simpa using h2, ?_⟩
    · rw [unwrapAll, h1]
      rfl
    · intro v hv
      cases v with
      | zero => rfl
      | succ j =>
        simp only [List.getD_cons_succ]
        exact h3 j (by simpa using hv)

/-- One expansion step of graph reachability through `connected_vertices`. -/
def reachStep (g : TGraph) (s : List Nat) : List Nat :=
  (s ++ s.flatMap g.adj).dedup

/-- Vertices reachable from the city set within `n` adjacency steps; on a
graph of `n` vertices this is every reachable vertex. -/
def reachClosure (g : TGraph) (cities : List Nat) : List Nat :=
  (reachStep g)^[g.n] cities

theorem regionFinal_covers (t : TerrainQ) (cities : List Nat) (hwf : t.graph.WF)
    (hrange : ∀ c ∈ cities, c < t.graph.n) (st : RegionState)
    (hinv : RegionInv t cities st) (hqe : st.queue = []) :
    ∀ (k : Nat) (v : Nat), v ∈ (reachStep t.graph)^[k] cities →
      v < t.graph.n ∧ (st.nearest.getD v none).isSome := by
  have hclosed : ∀ a, a < t.graph.n → (st.nearest.getD a none).isSome →
      ∀ w ∈ t.graph.adj a, (st.nearest.getD w none).isSome := by
    intro a ha hsome w hw
    by_cases hwn : st.nearest.getD w none = none
    · obtain ⟨c, s2, hcs⟩ := hinv.frontier a ha hsome w hw hwn
      rw [hqe] at hcs
      simp at hcs
    · exact Option.isSome_iff_ne_none.2 hwn
  intro k
  induction k with
  | zero =>
    intro v hv
    refine ⟨hrange v hv, ?_⟩
    rw [hinv.citySelf v hv]
    rfl
  | succ k ih =>
    intro v hv
    rw [Function.iterate_succ_apply'] at hv
    rw [reachStep, List.mem_dedup, List.mem_append] at hv
    rcases hv with hv | hv
    · exact ih v hv
    · obtain ⟨a, ha, hva⟩ := List.mem_flatMap.1 hv
      obtain ⟨han, hasome⟩ := ih a ha
      exact ⟨hwf.adjRange a han v hva, hclosed a han hasome v hva⟩

/-- C7 (amended): over a well-formed graph, for every city list whose
vertices are in range and from which every graph vertex is reachable through
`connected_vertices`, region growth terminates with the queue drained and
assigns every vertex exactly one region value that is a city from the list,
with every city vertex assigned to itself.  (The un-amended claim fails for
the empty city list: `generate_regions` then panics on `unwrap` — see the
counterexample.) -/
theorem claim7_region_coverage (t : TerrainQ) (cities : List Nat) (hwf : t.graph.WF)
    (hrange : ∀ c ∈ cities, c < t.graph.n)
    (hreach : ∀ v, v < t.graph.n → v ∈ reachClosure t.graph cities) :
    ∃ regions, generateRegionsOpt t cities = some regions ∧
      regions.length = t.graph.n ∧
      (∀ c ∈ cities, regions.getD c 0 = c) ∧
      (∀ v, v < t.graph.n → regions.getD v 0 ∈ cities) := by
  obtain ⟨hinv, hqe⟩ := regionLoop_run t cities hwf
    (regionMeasure t (regionSeed t cities) + 1) (regionSeed t cities)
    (regionSeed_inv t cities hwf hrange) (by omega)
  set final := regionLoop t (regionMeasure t (regionSeed t cities) + 1)
    (regionSeed t cities) with hfinal
  have hcov : ∀ v, v < t.graph.n → (final.nearest.getD v none).isSome := by
    intro v hv
    exact (regionFinal_covers t cities hwf hrange final hinv hqe t.graph.n v
      (hreach v hv)).2
  have hall : ∀ o ∈ final.nearest, o.isSome := by
    intro o ho
    obtain ⟨i, hi, hio⟩ := List.getElem_of_mem ho
    have hin : i < t.graph.n := by rw [← hinv.lenN]; exact hi
    have := hcov i hin
    rw [List.getD_eq_getElem _ _ hi, hio] at this
    exact this
  obtain ⟨res, hres, hlen, hpt⟩ := unwrapAll_some final.nearest hall
  refine ⟨res, ?_, by rw [hlen, hinv.lenN], ?_, ?_⟩
  · show unwrapAll final.nearest = some res
    exact hres
  · intro c hc
    have hcn : c < final.nearest.length := by rw [hinv.lenN]; exact hrange c hc
    have := hpt c hcn
    rw [hinv.citySelf c hc] at this
    injection this with h
    exact h.symm
  · intro v hv
    have hvn : v < final.nearest.length := by rw [hinv.lenN]; exact hv
    have := hpt v hvn
    exact hinv.valCities v _ this

/-- The five-vertex bent-chain terrain used by the region counterexamples and
witnesses: vertices `0 = (17,0)`, `1 = (12.5,0)`, `2 = (8,0)`, `3 = (4,3)`,
`4 = (0,0)` connected in a chain, all at elevation `0` with zero flux, so
every travel cost is just the euclidean distance (all distances here are
rational). -/
def regionTerrain : TerrainQ where
  graph :=
    { vertices := [⟨17, 0⟩, ⟨25/2, 0⟩, ⟨8, 0⟩, ⟨4, 3⟩, ⟨0, 0⟩]
      vertexType := [.Interior, .Interior, .Interior, .Interior, .Interior]
      adj := fun v =>
        if v = 0 then [1] else if v = 1 then [0, 2] else if v = 2 then [1, 3]
        else if v = 3 then [2, 4] else if v = 4 then [3] else []
      icvF := fun _ => none }
  elevation := [0, 0, 0, 0, 0]
  flux := [0, 0, 0, 0, 0]
  extent := ⟨⟨0, 17⟩, ⟨0, 3⟩⟩

theorem regionTerrain_wf : regionTerrain.graph.WF := by
  constructor
  · rfl
  · intro v hv w hw
    have hv5 : v < 5 := hv
    interval_cases v <;> simp [regionTerrain, TGraph.n] at hw ⊢ <;> omega


/-- C7 counterexample: with the configured city count `0` (a non-negative
integer, per the claim) the city list is empty, no vertex is ever assigned,
and `generate_regions` panics at `option_city.unwrap()` — modelled by `none`.
The claimed total assignment therefore fails for city count `0`. -/
theorem claim7_counterexample :
    generateRegionsOpt regionTerrain [] = none ∧ 0 < regionTerrain.graph.n := by
  exact ⟨rfl, by decide⟩

/-- Witness for C7 at the five-vertex chain terrain with cities `[0, 4]`. -/
theorem claim7_witness :
    regionTerrain.graph.WF ∧
    (∀ c ∈ ([0, 4] : List Nat), c < regionTerrain.graph.n) ∧
    (∀ v, v < regionTerrain.graph.n → v ∈ reachClosure regionTerrain.graph [0, 4]) ∧
    (∃ regions, generateRegionsOpt regionTerrain [0, 4] = some regions ∧
      regions.length = regionTerrain.graph.n ∧
      (∀ c ∈ ([0, 4] : List Nat), regions.getD c 0 = c) ∧
      (∀ v, v < regionTerrain.graph.n → regions.getD v 0 ∈ ([0, 4] : List Nat))) :=
  ⟨regionTerrain_wf, by decide, by decide,
    claim7_region_coverage regionTerrain [0, 4] regionTerrain_wf (by decide) (by decide)⟩


/-- Path validity: consecutive entries are connected through
`connected_vertices`. -/
def validPathB (t : TerrainQ) : List Nat → Bool
  | [] => true
  | [_] => true
  | a :: b :: rest => decide (b ∈ t.graph.adj a) && validPathB t (b :: rest)

/-- Cumulative travel cost of a path.  Modelled from the claim's words: the
sum of the adjacent-vertex travel-cost function over the edges of a graph
path. -/
def pathCost (t : TerrainQ) : List Nat → ℚ
  | [] => 0
  | [_] => 0
  | a :: b :: rest => calculateTravelCost t a b + pathCost t (b :: rest)

theorem regionTerrain_step_nonneg :
    ∀ a b : Nat, b ∈ regionTerrain.graph.adj a →
      0 ≤ calculateTravelCost regionTerrain a b := by
  intro a b hb
  rcases Nat.lt_or_ge a 5 with h5 | h5
  · interval_cases a <;>
      · simp only [regionTerrain] at hb
        norm_num at hb
        first
        | (rcases hb with hb | hb <;> subst hb <;>
            norm_num [calculateTravelCost, distance, distanceSq, sqrtQ, regionTerrain])
        | (subst hb
           norm_num [calculateTravelCost, distance, distanceSq, sqrtQ, regionTerrain])
  · exfalso
    simp only [regionTerrain] at hb
    rw [if_neg (by omega), if_neg (by omega), if_neg (by omega), if_neg (by omega),
      if_neg (by omega)] at hb
    exact absurd hb (List.not_mem_nil b)

theorem regionTerrain_path_nonneg :
    ∀ p, validPathB regionTerrain p = true → 0 ≤ pathCost regionTerrain p := by
  intro p
  induction p with
  | nil => intro _; exact le_rfl
  | cons a rest ih =>
    intro hv
    match rest, hv with
    | [], _ => exact le_rfl
    | b :: rest', hv =>
      rw [validPathB, Bool.and_eq_true, decide_eq_true_iff] at hv
      have h1 := regionTerrain_step_nonneg a b hv.1
      have h2 := ih hv.2
      rw [pathCost]
      linarith

theorem regionTerrain_path_lb :
    ∀ (m : Nat) (p : List Nat), p.length ≤ m → validPathB regionTerrain p = true →
      p.getLast? = some 2 →
      ((p.head? = some 3 → 5 ≤ pathCost regionTerrain p) ∧
       (p.head? = some 4 → 10 ≤ pathCost regionTerrain p)) := by
  intro m
  induction m with
  | zero =>
    intro p hp _ hlast
    have : p = [] := List.length_eq_zero.1 (Nat.le_zero.1 hp)
    subst this
    simp at hlast
  | succ m ih =>
    intro p hp hvalid hlast
    match p with
    | [] => simp at hlast
    | [w] =>
      simp only [List.getLast?_singleton] at hlast
      have hw : w = 2 := by injection hlast
      subst hw
      constructor
      · intro hh; simp at hh
      · intro hh; simp at hh
    | a :: b :: rest =>
      rw [validPathB, Bool.and_eq_true, decide_eq_true_iff] at hvalid
      obtain ⟨hb, hvalid'⟩ := hvalid
      have hlast' : (b :: rest).getLast? = some 2 := by
        rw [List.getLast?_cons_cons] at hlast
        exact hlast
      have hlen' : (b :: rest).length ≤ m := by
        simp only [List.length_cons] at hp ⊢
        omega
      have ihr := ih (b :: rest) hlen' hvalid' hlast'
      constructor
      · intro hh
        have ha : a = 3 := by injection hh
        subst ha
        simp only [regionTerrain] at hb
        norm_num at hb
        rcases hb with hb | hb
        · subst hb
          rw [pathCost]
          have hc : calculateTravelCost regionTerrain 3 2 = 5 := by
            norm_num [calculateTravelCost, distance, distanceSq, sqrtQ, regionTerrain]
          have hnn := regionTerrain_path_nonneg _ hvalid'
          rw [hc]
          linarith
        · subst hb
          rw [pathCost]
          have hc : calculateTravelCost regionTerrain 3 4 = 5 := by
            norm_num [calculateTravelCost, distance, distanceSq, sqrtQ, regionTerrain]
          have h10 := ihr.2 (by rfl)
          rw [hc]
          linarith
      · intro hh
        have ha : a = 4 := by injection hh
        subst ha
        simp only [regionTerrain] at hb
        norm_num at hb
        subst hb
        rw [pathCost]
        have hc : calculateTravelCost regionTerrain 4 3 = 5 := by
          norm_num [calculateTravelCost, distance, distanceSq, sqrtQ, regionTerrain]
        have h5 := ihr.1 (by rfl)
        rw [hc]
        linarith

/-- C1 counterexample: on the five-vertex chain terrain with cities `[0, 4]`,
the code assigns vertex `2` to city `4`, yet the cheapest cumulative path
from city `4` to vertex `2` costs at least `10` while the path `[0, 1, 2]`
from city `0` costs only `9`.  Vertex `2` is therefore not assigned to a city
of minimum cumulative travel cost: the queue is keyed by the direct travel
cost `calculate_travel_cost(city, vert)` between the origin city and the
candidate (here `distance(4, 2) = 8 < 9`), never by an accumulated path
cost, so the search is not the claimed multi-source Dijkstra. -/
theorem claim1_counterexample :
    generateRegionsOpt regionTerrain [0, 4] = some [0, 0, 4, 4, 4] ∧
    validPathB regionTerrain [0, 1, 2] = true ∧
    pathCost regionTerrain [0, 1, 2] = 9 ∧
    calculateTravelCost regionTerrain 4 2 = 8 ∧
    (∀ p, validPathB regionTerrain p = true → p.head? = some 4 →
      p.getLast? = some 2 → 10 ≤ pathCost regionTerrain p) := by
  refine ⟨?_, by decide, ?_, ?_, ?_⟩
  · norm_num [generateRegionsOpt, regionSeed, regionMeasure, regionLoop, pushNeighborCosts,
      pqPush, pqPop, unwrapAll, calculateTravelCost, distance, distanceSq, sqrtQ,
      TGraph.maxDeg, TGraph.n, regionTerrain, List.foldl, List.range, List.range.loop,
      List.countP, List.countP.go]
  · norm_num [pathCost, calculateTravelCost, distance, distanceSq, sqrtQ, regionTerrain]
  · norm_num [calculateTravelCost, distance, distanceSq, sqrtQ, regionTerrain]
  · intro p hv hh hl
    exact (regionTerrain_path_lb p.length p le_rfl hv hl).2 hh


/-- C1 (amended): at every step of the region-growth loop whose queue is
keyed by negative direct travel costs — as every queue the algorithm builds
is — the popped pair `(city, vert)` carries the key
`-calculate_travel_cost(city, vert)`, i.e. the direct cost from the origin
city straight to the candidate (not a cumulative path cost), and that direct
cost is minimal among all queued pairs; a candidate that already has an
assigned region is skipped, otherwise it is assigned the pair's origin city
and its neighbors are enqueued with freshly computed direct costs, which
keeps every queue key a negative direct travel cost. -/
theorem claim1_direct_cost_step (t : TerrainQ) (st : RegionState) (fuel : Nat)
    (hkeys : ∀ e ∈ st.queue, e.2 = -(calculateTravelCost t e.1.1 e.1.2)) :
    (pqPop st.queue = none → regionLoop t (fuel + 1) st = st) ∧
    (∀ city vert s rest, pqPop st.queue = some (((city, vert), s), rest) →
      s = -(calculateTravelCost t city vert) ∧
      (∀ e ∈ st.queue,
        calculateTravelCost t city vert ≤ calculateTravelCost t e.1.1 e.1.2) ∧
      (∀ e ∈ pushNeighborCosts t city vert rest,
        e.2 = -(calculateTravelCost t e.1.1 e.1.2)) ∧
      regionLoop t (fuel + 1) st =
        (if (st.nearest.getD vert none).isSome then
          regionLoop t fuel { st with queue := rest }
        else
          regionLoop t fuel
            { nearest := st.nearest.set vert (some city),
              queue := pushNeighborCosts t city vert rest })) := by
  constructor
  · intro hpop
    rw [regionLoop, hpop]
  · intro city vert s rest hpop
    have hperm := pqPop_perm st.queue _ _ hpop
    have hmem : (((city, vert), s) : (Nat × Nat) × ℚ) ∈ st.queue :=
      hperm.mem_iff.2 (List.mem_cons_self _ _)
    have hs : s = -(calculateTravelCost t city vert) := hkeys _ hmem
    refine ⟨hs, ?_, ?_, ?_⟩
    · intro e he
      have hle := pqPop_max st.queue _ _ hpop e he
      rw [hkeys e he, hs] at hle
      exact neg_le_neg_iff.1 hle
    · intro e he
      rcases pushNeighborCosts_mem t city vert rest e he with hq | ⟨w, hw, hew⟩
      · exact hkeys e (hperm.mem_iff.2 (List.mem_cons_of_mem _ hq))
      · subst hew
        rfl
    · rw [regionLoop, hpop]

/-- Witness for C1 (amended) at the five-vertex chain terrain and a
single-entry queue. -/
theorem claim1_witness :
    (∀ e ∈ [(((0 : Nat), (1 : Nat)), -(calculateTravelCost regionTerrain 0 1))],
      e.2 = -(calculateTravelCost regionTerrain e.1.1 e.1.2)) ∧
    ((pqPop [(((0 : Nat), (1 : Nat)), -(calculateTravelCost regionTerrain 0 1))] = none →
      regionLoop regionTerrain 1
        ⟨[none, none], [(((0 : Nat), (1 : Nat)), -(calculateTravelCost regionTerrain 0 1))]⟩ =
        ⟨[none, none], [(((0 : Nat), (1 : Nat)), -(calculateTravelCost regionTerrain 0 1))]⟩) ∧
    (∀ city vert s rest,
      pqPop [(((0 : Nat), (1 : Nat)), -(calculateTravelCost regionTerrain 0 1))] =
        some (((city, vert), s), rest) →
      s = -(calculateTravelCost regionTerrain city vert) ∧
      (∀ e ∈ [(((0 : Nat), (1 : Nat)), -(calculateTravelCost regionTerrain 0 1))],
        calculateTravelCost regionTerrain city vert ≤
          calculateTravelCost regionTerrain e.1.1 e.1.2) ∧
      (∀ e ∈ pushNeighborCosts regionTerrain city vert rest,
        e.2 = -(calculateTravelCost regionTerrain e.1.1 e.1.2)) ∧
      regionLoop regionTerrain 1
        ⟨[none, none], [(((0 : Nat), (1 : Nat)), -(calculateTravelCost regionTerrain 0 1))]⟩ =
        (if (([none, none] : List (Option Nat)).getD vert none).isSome then
          regionLoop regionTerrain 0 ⟨[none, none], rest⟩
        else
          regionLoop regionTerrain 0
            ⟨([none, none] : List (Option Nat)).set vert (some city),
              pushNeighborCosts regionTerrain city vert rest⟩))) := by
  refine ⟨?_, claim1_direct_cost_step regionTerrain
    ⟨[none, none], [(((0 : Nat), (1 : Nat)), -(calculateTravelCost regionTerrain 0 1))]⟩ 0 ?_⟩ <;>
  · intro e he
    rcases List.mem_singleton.1 he with rfl
    rfl


/-! ### Habitability (`regions.rs`, claim C5) -/

/-- The source's `generate_habitability`: zero for boundary vertices and
vertices with negative elevation; otherwise the flux mapped-and-clamped from
`[0, 0.05]` to `[0, 1]`, attenuated by per-axis edge factors, then the whole
array is min-max normalized.  The expression for `dist_y_edge` reads
`extent.x.start` exactly as the source does. -/
def generateHabitability (t : TerrainQ) : List ℚ :=
  normalizeQ ((List.range t.graph.n).map (fun i =>
    if t.graph.vertexType.getD i .Interior = .Boundary then 0
    else if t.elevation.getD i 0 < 0 then 0
    else
      let score := mapClamp (t.flux.getD i 0) 0 (1/20) 0 1
      let vertex := t.graph.vertices.getD i ⟨0, 0⟩
      let distXEdge := min (vertex.x - t.extent.x.start) (t.extent.x.stop - vertex.x)
      let distYEdge := min (vertex.y - t.extent.x.start) (t.extent.y.stop - vertex.y)
      score * mapClamp distXEdge 0 100 0 1 * mapClamp distYEdge 0 100 0 1))

/-- Habitability following the claim's words (modelled from the spec, for
comparison): zero for boundary vertices and vertices at or below sea level;
per-axis attenuation uses the distance to the nearest edge of that axis, so
the `y` factor measures from `extent.y.start`. -/
def habitabilityOfSpec (t : TerrainQ) : List ℚ :=
  normalizeQ ((List.range t.graph.n).map (fun i =>
    if t.graph.vertexType.getD i .Interior = .Boundary then 0
    else if t.elevation.getD i 0 ≤ 0 then 0
    else
      let score := mapClamp (t.flux.getD i 0) 0 (1/20) 0 1
      let vertex := t.graph.vertices.getD i ⟨0, 0⟩
      let distXEdge := min (vertex.x - t.extent.x.start) (t.extent.x.stop - vertex.x)
      let distYEdge := min (vertex.y - t.extent.y.start) (t.extent.y.stop - vertex.y)
      score * mapClamp distXEdge 0 100 0 1 * mapClamp distYEdge 0 100 0 1))

/-- Terrain for the habitability counterexample: a non-square domain
`[-50, 50] × [-200, 200]` and two interior vertices, one near the lower `y`
edge. -/
def c5Terrain : TerrainQ where
  graph :=
    { vertices := [⟨0, -160⟩, ⟨0, -190⟩, ⟨0, 0⟩]
      vertexType := [.Interior, .Boundary, .Interior]
      adj := fun _ => []
      icvF := fun _ => none }
  elevation := [1, 1, 1]
  flux := [1/20, 0, 1/20]
  extent := ⟨⟨-50, 50⟩, ⟨-200, 200⟩⟩

theorem interior_ne_boundary : (VertexType.Interior = VertexType.Boundary) ↔ False := by
  constructor
  · intro h
    exact VertexType.noConfusion h
  · intro h
    exact absurd h (fun hc => hc)

/-- C5: on the non-square domain `[-50, 50] × [-200, 200]`, the code computes
the `y`-axis edge distance of the vertex `(0, -160)` against `extent.x.start`
(`-50`) instead of `extent.y.start` (`-200`), giving `min(-110, 360) = -110`,
whose clamped attenuation is `0`; the claim's per-axis attenuation gives
`min(40, 360) = 40`, factor `0.4`.  The final arrays differ: the code yields
`[0, 0, 1]`, the claim's computation `[2/5, 0, 1]`. -/
theorem claim5_habitability_eval :
    generateHabitability c5Terrain = [0, 0, 1] ∧
    habitabilityOfSpec c5Terrain = [2/5, 0, 1] ∧
    generateHabitability c5Terrain ≠ habitabilityOfSpec c5Terrain := by
  refine ⟨?_, ?_, ?_⟩
  · norm_num [generateHabitability, normalizeQ, minmaxQ, mapClamp, mapRange, clampQ,
      c5Terrain, TGraph.n, List.range, List.range.loop, interior_ne_boundary]
  · norm_num [habitabilityOfSpec, normalizeQ, minmaxQ, mapClamp, mapRange, clampQ,
      c5Terrain, TGraph.n, List.range, List.range.loop, interior_ne_boundary]
  · intro hc
    have h1 : generateHabitability c5Terrain = [0, 0, 1] := by
      norm_num [generateHabitability, normalizeQ, minmaxQ, mapClamp, mapRange, clampQ,
        c5Terrain, TGraph.n, List.range, List.range.loop, interior_ne_boundary]
    have h2 : habitabilityOfSpec c5Terrain = [2/5, 0, 1] := by
      norm_num [habitabilityOfSpec, normalizeQ, minmaxQ, mapClamp, mapRange, clampQ,
        c5Terrain, TGraph.n, List.range, List.range.loop, interior_ne_boundary]
    rw [h1, h2] at hc
    norm_num at hc


/-! ### Normals and erosion (`terrain_data.rs`, `erosion/generate_erosion.rs`,
`erosion.rs`, claim C10) -/

/-- `Vec3` subtraction. -/
def vec3Sub (a b : Vec3) : Vec3 :=
  ⟨a.x - b.x, a.y - b.y, a.z - b.z⟩

/-- `Vec3::cross`. -/
def vec3Cross (a b : Vec3) : Vec3 :=
  ⟨a.y * b.z - a.z * b.y, a.z * b.x - a.x * b.z, a.x * b.y - a.y * b.x⟩

/-- Squared length of a `Vec3`. -/
def vec3LengthSq (a : Vec3) : ℚ :=
  a.x ^ 2 + a.y ^ 2 + a.z ^ 2

/-- glam's `normalize_or_zero`: the unit vector in the same direction, or the
zero vector when the length is zero (degenerate). -/
def normalizeOrZero (v : Vec3) : Vec3 :=
  let len := sqrtQ (vec3LengthSq v)
  if len = 0 then ⟨0, 0, 0⟩ else ⟨v.x / len, v.y / len, v.z / len⟩

/-- One step of the `generate_normal` loop at interior vertex `v`: the
normalized cross product of two edges of the neighbor triangle, with
`(x, y, elevation)` coordinates; `none` models the `unwrap` panic when
`interior_connected_vertices` yields nothing. -/
def normalStep (g : TGraph) (elevation : List ℚ) (acc : Option (List Vec3))
    (v : Nat) : Option (List Vec3) :=
  match acc with
  | none => none
  | some normals =>
    match g.icvF v with
    | none => none
    | some (na, nb, nc) =>
      let pa : Vec3 := ⟨(g.vertices.getD na ⟨0, 0⟩).x, (g.vertices.getD na ⟨0, 0⟩).y,
        elevation.getD na 0⟩
      let pb : Vec3 := ⟨(g.vertices.getD nb ⟨0, 0⟩).x, (g.vertices.getD nb ⟨0, 0⟩).y,
        elevation.getD nb 0⟩
      let pc : Vec3 := ⟨(g.vertices.getD nc ⟨0, 0⟩).x, (g.vertices.getD nc ⟨0, 0⟩).y,
        elevation.getD nc 0⟩
      some (normals.set v
        (normalizeOrZero (vec3Cross (vec3Sub pb pa) (vec3Sub pc pa))))

/-- The source's `generate_normal`: every vertex starts at `Vec3::ZERO`; each
interior vertex gets its triangle normal via `normalStep`. -/
def generateNormal (g : TGraph) (elevation : List ℚ) : Option (List Vec3) :=
  g.interiorIdx.foldl (normalStep g elevation) (some (List.replicate g.n ⟨0, 0, 0⟩))

/-- The source's `generate_erosion`: per vertex, the squared horizontal
length of its normal scales a river term (`sqrt` of flux) and a creep term
(`0.001`), clamped to `[0, 0.02]`. -/
def generateErosion (g : TGraph) (flux : List ℚ) (normals : List Vec3) : List ℚ :=
  (List.range g.n).map (fun i =>
    let nv := normals.getD i ⟨0, 0, 0⟩
    let scalar := nv.x ^ 2 + nv.y ^ 2
    let river := scalar * sqrtQ (flux.getD i 0)
    let creep := scalar * (1 / 1000)
    clampQ (river + creep) 0 (1 / 50))

/-- The source's `erode`: subtract `erosion[i] * scalar` from every
elevation. -/
def erode (elevation erosion : List ℚ) (scalar : ℚ) : List ℚ :=
  elevation.mapIdx (fun i e => e - erosion.getD i 0 * scalar)

theorem getD_range_map (f : Nat → ℚ) (n i : Nat) (hi : i < n) :
    ((List.range n).map f).getD i 0 = f i := by
  have hlen : i < ((List.range n).map f).length := by simpa using hi
  rw [List.getD_eq_getElem _ _ hlen]
  simp

theorem getD_mapIdx (l : List ℚ) (f : Nat → ℚ → ℚ) (i : Nat) (hi : i < l.length) :
    (l.mapIdx f).getD i 0 = f i (l.getD i 0) := by
  have h2 : i < (l.mapIdx f).length := by simpa [List.length_mapIdx] using hi
  rw [List.getD_eq_getElem _ _ h2, List.getD_eq_getElem _ _ hi]
  simp [List.getElem_mapIdx]

theorem normalStep_fold_none (g : TGraph) (elevation : List ℚ) :
    ∀ (l : List Nat), l.foldl (normalStep g elevation) none = none := by
  intro l
  induction l with
  | nil => rfl
  | cons x r ihr => rw [List.foldl_cons]; exact ihr

theorem generateNormal_untouched (g : TGraph) (elevation : List ℚ) (i : Nat) :
    ∀ (l : List Nat), i ∉ l → ∀ (acc res : List Vec3),
      l.foldl (normalStep g elevation) (some acc) = some res →
      res.getD i ⟨0, 0, 0⟩ = acc.getD i ⟨0, 0, 0⟩ := by
  intro l
  induction l with
  | nil =>
    intro _ acc res h
    rw [List.foldl_nil] at h
    injection h with h
    rw [h]
  | cons v rest ih =>
    intro hmem acc res h
    have hiv : v ≠ i := fun hc => hmem (hc ▸ List.mem_cons_self _ _)
    have hirest : i ∉ rest := fun hc => hmem (List.mem_cons_of_mem _ hc)
    rw [List.foldl_cons] at h
    cases hicv : g.icvF v with
    | none =>
      rw [normalStep, hicv] at h
      rw [normalStep_fold_none] at h
      exact absurd h (by simp)
    | some nbc =>
      obtain ⟨na, nb, nc⟩ := nbc
      rw [normalStep, hicv] at h
      have := ih hirest _ res h
      rw [this, getD_set_ne _ _ _ _ _ hiv]

/-- C10: for every graph, elevation and flux array, every boundary vertex's
surface normal is the zero vector, its erosion magnitude is exactly `0`, and
the `erode` step leaves its elevation unchanged. -/
theorem claim10_boundary_frame (g : TGraph) (elevation flux : List ℚ)
    (i : Nat) (hi : i < g.n)
    (hb : g.vertexType.getD i .Interior = .Boundary)
    (normals : List Vec3) (hn : generateNormal g elevation = some normals)
    (helen : elevation.length = g.n) :
    normals.getD i ⟨0, 0, 0⟩ = ⟨0, 0, 0⟩ ∧
    (generateErosion g flux normals).getD i 0 = 0 ∧
    (erode elevation (generateErosion g flux normals) 500).getD i 0 =
      elevation.getD i 0 := by
  have hnotmem : i ∉ g.interiorIdx := by
    intro hc
    rw [TGraph.interiorIdx, List.mem_filter] at hc
    rw [hb] at hc
    simp at hc
  have hzero : normals.getD i ⟨0, 0, 0⟩ = ⟨0, 0, 0⟩ := by
    rw [generateNormal] at hn
    have := generateNormal_untouched g elevation i g.interiorIdx hnotmem
      (List.replicate g.n ⟨0, 0, 0⟩) normals hn
    rw [this]
    rw [List.getD_eq_getElem _ _ (by simpa using hi)]
    simp
  have hero : (generateErosion g flux normals).getD i 0 = 0 := by
    rw [generateErosion, getD_range_map _ _ _ hi, hzero]
    norm_num [clampQ, sqrtQ]
  refine ⟨hzero, hero, ?_⟩
  have hie : i < elevation.length := by rw [helen]; exact hi
  rw [erode, getD_mapIdx _ _ _ hie, hero]
  ring

/-- Witness for C10 at the concrete path graph (vertex `0` is boundary). -/
theorem claim10_witness :
    (0 < pathGraph3.n ∧
     pathGraph3.vertexType.getD 0 .Interior = .Boundary ∧
     generateNormal pathGraph3 [0, 3, 7] = some [⟨0, 0, 0⟩, ⟨0, 0, 0⟩, ⟨0, 0, 0⟩] ∧
     ([(0 : ℚ), 3, 7] : List ℚ).length = pathGraph3.n) ∧
    ([(⟨0, 0, 0⟩ : Vec3), ⟨0, 0, 0⟩, ⟨0, 0, 0⟩].getD 0 ⟨0, 0, 0⟩ = ⟨0, 0, 0⟩ ∧
     (generateErosion pathGraph3 [1, 1, 1]
        [⟨0, 0, 0⟩, ⟨0, 0, 0⟩, ⟨0, 0, 0⟩]).getD 0 0 = 0 ∧
     (erode [0, 3, 7] (generateErosion pathGraph3 [1, 1, 1]
        [⟨0, 0, 0⟩, ⟨0, 0, 0⟩, ⟨0, 0, 0⟩]) 500).getD 0 0 = ([(0 : ℚ), 3, 7]).getD 0 0) := by
  have hn : generateNormal pathGraph3 [0, 3, 7] =
      some [⟨0, 0, 0⟩, ⟨0, 0, 0⟩, ⟨0, 0, 0⟩] := by
    norm_num [generateNormal, normalStep, TGraph.interiorIdx, TGraph.n, pathGraph3,
      List.range, List.range.loop, normalizeOrZero, vec3Cross, vec3Sub, vec3LengthSq,
      sqrtQ, interior_ne_boundary, List.replicate]
  exact ⟨⟨by decide, by decide, hn, rfl⟩,
    claim10_boundary_frame pathGraph3 [0, 3, 7] [1, 1, 1] 0 (by decide) (by decide)
      [⟨0, 0, 0⟩, ⟨0, 0, 0⟩, ⟨0, 0, 0⟩] hn rfl⟩

/-! ### Poisson-disk sampling (`util/poisson.rs`, claim C2) -/

/-- The `f32` constant `std::f32::consts::SQRT_2` — the binary32 float
nearest to `√2`, whose exact value is `11863283 / 8388608`. -/
def sqrt2F32 : ℚ := 11863283 / 8388608

/-- Rust's `as usize` on a non-negative `f32`: truncation (saturating at
zero). -/
def f32AsUsize (q : ℚ) : Nat :=
  if 0 ≤ q then q.floor.toNat else 0

/-- Random draws consumed by the sampler, supplied as explicit streams:
`initU`/`initV` choose the seed point inside the extent (`Range::lerp`),
`idx k` chooses the queued index at loop iteration `k` (`gen_range(0..len)`,
modelled modulo the queue length), and `dir k i` is the unit direction of
attempt `i` of `generate_sample` call `k`.  In the source the 30 attempt
directions are the cosine/sine pairs of evenly spaced angles starting from
one uniformly drawn seed angle; the model draws the unit vectors themselves,
a superset of the source's behaviors that leaves the acceptance logic
untouched. -/
structure RandStream where
  initU : ℚ
  initV : ℚ
  idx : Nat → Nat
  dir : Nat → Nat → ℚ × ℚ

/-- Derived sampler constants (`PoissonDiskSampler`'s `extent`, `radius`,
`cell_size` and the `SampleGrid` dimensions). -/
structure PoissonCtx where
  extent : RectQ
  radius : ℚ
  cellSize : ℚ
  cols : Nat
  rows : Nat

/-- Mutable sampler state: the active list, the accepted points and the
spatial grid (at most one point index per cell). -/
structure PoissonState where
  queued : List Nat
  points : List Vec2
  grid : List (Option Nat)

/-- `PoissonDiskSampler::cell`. -/
def cellOf (ctx : PoissonCtx) (p : Vec2) : Nat × Nat :=
  (f32AsUsize ((p.x - ctx.extent.x.start) / ctx.cellSize),
   f32AsUsize ((p.y - ctx.extent.y.start) / ctx.cellSize))

/-- `SampleGrid::get`. -/
def gridGet (ctx : PoissonCtx) (grid : List (Option Nat)) (cell : Nat × Nat) : Option Nat :=
  grid.getD (cell.1 + cell.2 * ctx.cols) none

/-- `SampleGrid::set` (with a point index). -/
def gridSet (ctx : PoissonCtx) (grid : List (Option Nat)) (cell : Nat × Nat)
    (value : Option Nat) : List (Option Nat) :=
  grid.set (cell.1 + cell.2 * ctx.cols) value

/-- `PoissonDiskSampler::near_point_in_cell`: true when the cell holds a
point within `radius` of `p` (strict squared-distance comparison). -/
def nearPointInCell (ctx : PoissonCtx) (points : List Vec2) (grid : List (Option Nat))
    (p : Vec2) (cell : Nat × Nat) : Bool :=
  match gridGet ctx grid cell with
  | some i => decide (distanceSq (points.getD i ⟨0, 0⟩) p < ctx.radius * ctx.radius)
  | none => false

/-- `PoissonDiskSampler::near_point_in_grid`: scan the `span = 2` neighborhood
of `p`'s cell, clamped to the grid. -/
def nearPointInGrid (ctx : PoissonCtx) (points : List Vec2) (grid : List (Option Nat))
    (p : Vec2) : Bool :=
  let c := cellOf ctx p
  let xMin := (max ((c.1 : Int) - 2) 0).toNat
  let yMin := (max ((c.2 : Int) - 2) 0).toNat
  let xMax := (min ((c.1 : Int) + 2 + 1) (ctx.cols : Int)).toNat
  let yMax := (min ((c.2 : Int) + 2 + 1) (ctx.rows : Int)).toNat
  (List.range' yMin (yMax - yMin)).any (fun y =>
    (List.range' xMin (xMax - xMin)).any (fun x =>
      nearPointInCell ctx points grid p (x, y)))

/-- The attempt loop of `PoissonDiskSampler::generate_sample`: candidate at
distance `radius + 0.0001` from `near` in direction `dirs i`; skip candidates
outside the extent, accept the first one not near an existing grid point. -/
def generateSampleGo (ctx : PoissonCtx) (points : List Vec2) (grid : List (Option Nat))
    (near : Vec2) (dirs : Nat → ℚ × ℚ) : Nat → Nat → Option Vec2
  | _, 0 => none
  | i, remaining + 1 =>
    let d := dirs i
    let r := ctx.radius + 1 / 10000
    let point : Vec2 := ⟨near.x + d.1 * r, near.y + d.2 * r⟩
    if ¬(ctx.extent.containsP point) then
      generateSampleGo ctx points grid near dirs (i + 1) remaining
    else if ¬(nearPointInGrid ctx points grid point) then
      some point
    else
      generateSampleGo ctx points grid near dirs (i + 1) remaining

/-- `PoissonDiskSampler::generate_sample` with 30 attempts. -/
def generateSample (ctx : PoissonCtx) (points : List Vec2) (grid : List (Option Nat))
    (near : Vec2) (dirs : Nat → ℚ × ℚ) : Option Vec2 :=
  generateSampleGo ctx points grid near dirs 0 30

/-- The `while !queued.is_empty()` loop of
`PoissonDiskSampler::generate_samples`, with explicit fuel (`none` on
exhaustion; the source loop terminates because every acceptance fills a grid
cell and every failure retires an active point).  `k` counts the loop
iterations to index the random streams. -/
def poissonLoop (ctx : PoissonCtx) (stream : RandStream) :
    Nat → Nat → PoissonState → Option (List Vec2)
  | 0, _, _ => none
  | fuel + 1, k, st =>
    match st.queued with
    | [] => some st.points
    | _ :: _ =>
      let nearIndex := stream.idx k % st.queued.length
      let nearPoint := st.points.getD (st.queued.getD nearIndex 0) ⟨0, 0⟩
      match generateSample ctx st.points st.grid nearPoint (stream.dir k) with
      | some sample =>
        let nextPointIndex := st.points.length
        poissonLoop ctx stream fuel (k + 1)
          { queued := st.queued ++ [nextPointIndex],
            points := st.points ++ [sample],
            grid := gridSet ctx st.grid (cellOf ctx sample) (some nextPointIndex) }
      | none =>
        poissonLoop ctx stream fuel (k + 1) { st with queued := st.queued.eraseIdx nearIndex }

/-- The source's `poisson`: build the grid (cell size `radius / √2`, grid
dimensions `ceil(wh / cell_size)`), seed with one random point — which is
pushed to `points` and `queued` but never inserted into the grid, exactly as
in `generate_samples` — then run the dart-throwing loop. -/
def poisson (stream : RandStream) (extent : RectQ) (radius : ℚ) (fuel : Nat) :
    Option (List Vec2) :=
  let cellSize := radius / sqrt2F32
  let cols := f32AsUsize (Rat.ceil (RectQ.w extent / cellSize) : Int)
  let rows := f32AsUsize (Rat.ceil (RectQ.h extent / cellSize) : Int)
  let ctx : PoissonCtx := ⟨extent, radius, cellSize, cols, rows⟩
  let init : Vec2 :=
    ⟨extent.x.start + stream.initU * (extent.x.stop - extent.x.start),
     extent.y.start + stream.initV * (extent.y.stop - extent.y.start)⟩
  poissonLoop ctx stream fuel 0
    { queued := [0], points := [init], grid := List.replicate (rows * cols) none }


/-- The concrete random stream of the C2 counterexample: seed point
`(0.05, 0.1)`; call `0` samples from the seed point in direction `(1, 0)`,
call `1` samples from the second point in the unit direction
`(-840/841, 41/841)` (both realizable as `(cos t, sin t)`), and all later
calls aim straight up, where every candidate leaves the thin extent. -/
def c2Stream : RandStream where
  initU := 1 / 24
  initV := 1 / 2
  idx := fun k => if k = 1 then 1 else 0
  dir := fun k _i => if k = 0 then (1, 0) else if k = 1 then (-840/841, 41/841) else (0, 1)

/-- C2: on the domain `[0, 1.2] × [0, 0.2]` with radius `1`, the sampler
returns three points of which the first (the seed) and the third are at
squared distance `≈ 0.00238 < radius²`: the seed point is pushed to `points`
and `queued` but never inserted into the spatial grid, so
`near_point_in_grid` cannot reject candidates that fall next to it.  The
third point is accepted because the grid only holds the second point, at
distance exactly `radius + 0.0001` from it. -/
theorem claim2_poisson_eval :
    poisson c2Stream ⟨⟨0, 6/5⟩, ⟨0, 1/5⟩⟩ 1 10 =
      some [⟨1/20, 1/10⟩, ⟨10501/10000, 1/10⟩, ⟨430501/8410000, 1251041/8410000⟩] ∧
    distanceSq ⟨1/20, 1/10⟩ ⟨430501/8410000, 1251041/8410000⟩ < 1 * 1 ∧
    (⟨1/20, 1/10⟩ : Vec2) ≠ ⟨430501/8410000, 1251041/8410000⟩ := by
  refine ⟨?_, by norm_num [distanceSq], ?_⟩
  · norm_num [poisson, poissonLoop, generateSample, generateSampleGo, nearPointInGrid,
      nearPointInCell, gridGet, gridSet, cellOf, f32AsUsize, sqrt2F32, distanceSq,
      RectQ.containsP, RectQ.w, RectQ.h, c2Stream, Rat.floor, Rat.ceil, List.replicate,
      List.range', List.eraseIdx]
  · intro hc
    have := congrArg Vec2.x hc
    norm_num at this


/-! ### Half-edge triangulation and `interior_connected_vertices`
(`util/voronoi.rs`, `terrain_graph.rs`, claim C9) -/

/-- The delaunator triangulation tables: `triangles` maps each half-edge to
its tail point, `halfedges` maps each half-edge to its opposite (`none`
models `delaunator::EMPTY`), `hull` lists the convex-hull point indices.
The tables themselves are produced by the external `delaunator` crate (code
not in this repository); their documented invariants enter the theorem as
hypotheses modelled from the spec. -/
structure Triangulation where
  triangles : List Nat
  halfedges : List (Option Nat)
  hull : List Nat

/-- `delaunator::next_halfedge`. -/
def nextHalfedge (e : Nat) : Nat :=
  if e % 3 = 2 then e - 2 else e + 1

/-- The source's `triangle_of_edge`. -/
def triangleOfEdge (e : Nat) : Nat :=
  e / 3

/-- The source's `edge_tuple_of_triangle`. -/
def edgeTupleOfTriangle (t : Nat) : Nat × Nat × Nat :=
  (t * 3, t * 3 + 1, t * 3 + 2)

/-- The source's `build_incoming_edge_index`: for each point, some incoming
half-edge, preferring a "leftmost" one (an incoming edge whose outgoing
partner is absent) so that the around-point walk visits the whole fan. -/
def buildIncomingEdgeIndex (tr : Triangulation) : List (Option Nat) :=
  (List.range tr.triangles.length).foldl
    (fun result e =>
      let pointIndex := tr.triangles.getD (nextHalfedge e) 0
      let isLeftmost := tr.halfedges.getD e none = none
      if result.getD pointIndex none = none ∨ isLeftmost then
        result.set pointIndex (some e)
      else
        result)
    (List.replicate tr.triangles.length none)

/-- The `EdgesAroundPoint` iterator: from the current incoming edge, rotate
to `halfedges[next_halfedge(curr)]` until hitting the start or an absent
opposite.  Fuel bounds the walk (the source iterator relies on the incident
fan being finite). -/
def edgesAroundPointGo (tr : Triangulation) (last : Nat) : Nat → Nat → List Nat
  | 0, _ => []
  | fuel + 1, curr =>
    curr ::
      (match tr.halfedges.getD (nextHalfedge curr) none with
       | none => []
       | some nxt =>
         if nxt ≠ last then edgesAroundPointGo tr last fuel nxt else [])

/-- The source's `edges_around_point` (an `EMPTY` start yields nothing). -/
def edgesAroundPoint (tr : Triangulation) (incomingEdge : Option Nat) : List Nat :=
  match incomingEdge with
  | none => []
  | some e => edgesAroundPointGo tr e (tr.halfedges.length + 1) e

/-- A Voronoi cell: the surrounding triangle indices and the hull flag. -/
structure VoronoiCell where
  vertices : List Nat
  hull : Bool

/-- `Voronoi::new`'s cell construction: one cell per `incoming` entry (the
ring of incident triangles), then the hull flag of every hull point's cell is
set. -/
def voronoiCells (tr : Triangulation) : List VoronoiCell :=
  let incoming := buildIncomingEdgeIndex tr
  let base := incoming.map
    (fun he => VoronoiCell.mk ((edgesAroundPoint tr he).map triangleOfEdge) false)
  tr.hull.foldl
    (fun cells i =>
      cells.set i ⟨(cells.getD i ⟨[], false⟩).vertices, true⟩)
    base

/-- `TerrainGraph::new`'s vertex classification: every vertex starts
`Interior`; every vertex in a hull point's cell ring is marked `Boundary`. -/
def vertexTypeOf (tr : Triangulation) : List VertexType :=
  let cells := voronoiCells tr
  tr.hull.foldl
    (fun vt i =>
      ((cells.getD i ⟨[], false⟩).vertices).foldl (fun vt v => vt.set v .Boundary) vt)
    (List.replicate (tr.triangles.length / 3) .Interior)

/-- `TerrainGraph::interior_connected_vertices` over the embedded tables:
`some none` is the `None` result on a boundary vertex, `some (some triple)`
the triple of neighboring triangle indices, and the outer `none` models the
`assert!` panic on an absent opposite half-edge. -/
def interiorConnectedVertices (tr : Triangulation) (vt : List VertexType) (v : Nat) :
    Option (Option (Nat × Nat × Nat)) :=
  if vt.getD v .Interior = .Boundary then some none
  else
    match tr.halfedges.getD (edgeTupleOfTriangle v).1 none,
        tr.halfedges.getD (edgeTupleOfTriangle v).2.1 none,
        tr.halfedges.getD (edgeTupleOfTriangle v).2.2 none with
    | some ha, some hb, some hc =>
      some (some (triangleOfEdge ha, triangleOfEdge hb, triangleOfEdge hc))
    | _, _, _ => none

theorem markFold_length (vs : List Nat) (vt : List VertexType) :
    (vs.foldl (fun vt v => vt.set v VertexType.Boundary) vt).length = vt.length := by
  induction vs generalizing vt with
  | nil => rfl
  | cons w rest ih => rw [List.foldl_cons, ih, List.length_set]

theorem markFold_sticky (vs : List Nat) (vt : List VertexType) (w : Nat)
    (hw : vt.getD w .Interior = .Boundary) :
    (vs.foldl (fun vt v => vt.set v VertexType.Boundary) vt).getD w .Interior = .Boundary := by
  induction vs generalizing vt with
  | nil => exact hw
  | cons x rest ih =>
    rw [List.foldl_cons]
    refine ih _ ?_
    by_cases hxw : x = w
    · subst hxw
      by_cases hlt : x < vt.length
      · exact getD_set_self _ _ _ _ hlt
      · rw [List.set_eq_of_length_le (Nat.le_of_not_lt hlt)]
        exact hw
    · rw [getD_set_ne _ _ _ _ _ hxw]
      exact hw

theorem markFold_marks (vs : List Nat) (vt : List VertexType) (w : Nat)
    (hmem : w ∈ vs) (hlt : w < vt.length) :
    (vs.foldl (fun vt v => vt.set v VertexType.Boundary) vt).getD w .Interior = .Boundary := by
  induction vs generalizing vt with
  | nil => simp at hmem
  | cons x rest ih =>
    rw [List.foldl_cons]
    rcases List.mem_cons.1 hmem with hx | hx
    · subst hx
      exact markFold_sticky _ _ _ (getD_set_self _ _ _ _ hlt)
    · exact ih _ hx (by rw [List.length_set]; exact hlt)

theorem cellFold_length (tr : Triangulation) (hl : List Nat) (vt : List VertexType) :
    (hl.foldl
      (fun vt i =>
        (((voronoiCells tr).getD i ⟨[], false⟩).vertices).foldl
          (fun vt v => vt.set v VertexType.Boundary) vt) vt).length = vt.length := by
  induction hl generalizing vt with
  | nil => rfl
  | cons p rest ih => rw [List.foldl_cons, ih, markFold_length]

theorem cellFold_sticky (tr : Triangulation) (hl : List Nat) (vt : List VertexType)
    (w : Nat) (hw : vt.getD w .Interior = .Boundary) :
    (hl.foldl
      (fun vt i =>
        (((voronoiCells tr).getD i ⟨[], false⟩).vertices).foldl
          (fun vt v => vt.set v VertexType.Boundary) vt) vt).getD w .Interior = .Boundary := by
  induction hl generalizing vt with
  | nil => exact hw
  | cons p rest ih =>
    rw [List.foldl_cons]
    exact ih _ (markFold_sticky _ _ _ hw)

theorem cellFold_marks (tr : Triangulation) (hl : List Nat) (vt : List VertexType)
    (p w : Nat) (hp : p ∈ hl) (hmem : w ∈ ((voronoiCells tr).getD p ⟨[], false⟩).vertices)
    (hlt : w < vt.length) :
    (hl.foldl
      (fun vt i =>
        (((voronoiCells tr).getD i ⟨[], false⟩).vertices).foldl
          (fun vt v => vt.set v VertexType.Boundary) vt) vt).getD w .Interior = .Boundary := by
  induction hl generalizing vt with
  | nil => simp at hp
  | cons q rest ih =>
    rw [List.foldl_cons]
    rcases List.mem_cons.1 hp with hq | hq
    · subst hq
      exact cellFold_sticky _ _ _ _ (markFold_marks _ _ _ hmem hlt)
    · exact ih _ hq (by rw [markFold_length]; exact hlt)

/-- C9: under the documented invariants of the external `delaunator`
triangulation (modelled from the spec): tables of matching size, a triangle
count that divides the edge table by three, exterior half-edges ending at
hull points, and the around-point cell walk covering every incoming edge of
its point — `interior_connected_vertices` returns `None` exactly on
`Boundary`-classified vertices; on every `Interior` vertex all three opposite
half-edges are present (the `assert!` never fires) and the result is the
triple of the three neighboring triangle indices. -/
theorem claim9_interior_connected (tr : Triangulation) (numT : Nat)
    (hnum : tr.triangles.length = 3 * numT)
    (hhullmark : ∀ e, e < tr.triangles.length → tr.halfedges.getD e none = none →
      tr.triangles.getD (nextHalfedge e) 0 ∈ tr.hull)
    (hcellcomplete : ∀ e, e < tr.triangles.length →
      triangleOfEdge e ∈
        ((voronoiCells tr).getD (tr.triangles.getD (nextHalfedge e) 0) ⟨[], false⟩).vertices)
    (v : Nat) (hv : v < numT) :
    (interiorConnectedVertices tr (vertexTypeOf tr) v = some none ↔
      (vertexTypeOf tr).getD v .Interior = .Boundary) ∧
    ((vertexTypeOf tr).getD v .Interior = .Interior →
      ∃ ea eb ec, tr.halfedges.getD (v * 3) none = some ea ∧
        tr.halfedges.getD (v * 3 + 1) none = some eb ∧
        tr.halfedges.getD (v * 3 + 2) none = some ec ∧
        interiorConnectedVertices tr (vertexTypeOf tr) v =
          some (some (triangleOfEdge ea, triangleOfEdge eb, triangleOfEdge ec))) := by
  have hpresent : (vertexTypeOf tr).getD v .Interior = .Interior →
      ∀ k, k < 3 → tr.halfedges.getD (v * 3 + k) none ≠ none := by
    intro hI k hk hnone
    have he : v * 3 + k < tr.triangles.length := by omega
    have hp := hhullmark _ he hnone
    have hcell := hcellcomplete _ he
    have htv : triangleOfEdge (v * 3 + k) = v := by
      rw [triangleOfEdge]
      omega
    rw [htv] at hcell
    have hmarked : (vertexTypeOf tr).getD v .Interior = .Boundary := by
      rw [vertexTypeOf]
      refine cellFold_marks tr tr.hull _ _ v hp hcell ?_
      rw [List.length_replicate, hnum]
      omega
    rw [hI] at hmarked
    exact VertexType.noConfusion hmarked
  have htwo : (vertexTypeOf tr).getD v .Interior = .Interior ∨
      (vertexTypeOf tr).getD v .Interior = .Boundary := by
    cases h : (vertexTypeOf tr).getD v .Interior
    · exact Or.inl rfl
    · exact Or.inr rfl
  have hmain : (vertexTypeOf tr).getD v .Interior = .Interior →
      ∃ ea eb ec, tr.halfedges.getD (v * 3) none = some ea ∧
        tr.halfedges.getD (v * 3 + 1) none = some eb ∧
        tr.halfedges.getD (v * 3 + 2) none = some ec ∧
        interiorConnectedVertices tr (vertexTypeOf tr) v =
          some (some (triangleOfEdge ea, triangleOfEdge eb, triangleOfEdge ec)) := by
    intro hI
    have h0 := hpresent hI 0 (by omega)
    have h1 := hpresent hI 1 (by omega)
    have h2 := hpresent hI 2 (by omega)
    obtain ⟨ea, hea⟩ := Option.ne_none_iff_exists'.1 (by simpa using h0)
    obtain ⟨eb, heb⟩ := Option.ne_none_iff_exists'.1 h1
    obtain ⟨ec, hec⟩ := Option.ne_none_iff_exists'.1 h2
    refine ⟨ea, eb, ec, by simpa using hea, heb, hec, ?_⟩
    rw [interiorConnectedVertices, if_neg (by rw [hI]; exact fun hc => VertexType.noConfusion hc)]
    have he0 : (edgeTupleOfTriangle v).1 = v * 3 := rfl
    have he1 : (edgeTupleOfTriangle v).2.1 = v * 3 + 1 := rfl
    have he2 : (edgeTupleOfTriangle v).2.2 = v * 3 + 2 := rfl
    rw [he0, he1, he2, show tr.halfedges.getD (v * 3) none = some ea from by simpa using hea,
      heb, hec]
  refine ⟨?_, hmain⟩
  constructor
  · intro hicv
    rcases htwo with hI | hB
    · obtain ⟨ea, eb, ec, _, _, _, hres⟩ := hmain hI
      rw [hres] at hicv
      simp at hicv
    · exact hB
  · intro hB
    rw [interiorConnectedVertices, if_pos hB]


/-- A concrete seven-triangle triangulation (triangle hull `0,1,2` around an
inner triangle of points `3,4,5`) whose triangle `0` is interior: used to
witness C9. -/
def hexTriangulation : Triangulation where
  triangles := [3, 4, 5, 0, 1, 4, 0, 4, 3, 1, 2, 5, 1, 5, 4, 2, 0, 3, 2, 3, 5]
  halfedges := [some 7, some 13, some 19, none, some 14, some 6, some 5, some 0, some 16,
    none, some 20, some 12, some 11, some 1, some 4, none, some 8, some 18, some 17,
    some 2, some 10]
  hull := [0, 1, 2]

/-- Witness for C9 at the concrete triangulation, instantiated at the
interior triangle `0` (whose neighbor triple is `(2, 4, 6)`). -/
theorem claim9_witness :
    (hexTriangulation.triangles.length = 3 * 7 ∧
     (∀ e, e < hexTriangulation.triangles.length →
        hexTriangulation.halfedges.getD e none = none →
        hexTriangulation.triangles.getD (nextHalfedge e) 0 ∈ hexTriangulation.hull) ∧
     (∀ e, e < hexTriangulation.triangles.length →
        triangleOfEdge e ∈
          ((voronoiCells hexTriangulation).getD
            (hexTriangulation.triangles.getD (nextHalfedge e) 0) ⟨[], false⟩).vertices) ∧
     0 < 7) ∧
    ((interiorConnectedVertices hexTriangulation (vertexTypeOf hexTriangulation) 0 =
        some none ↔
      (vertexTypeOf hexTriangulation).getD 0 .Interior = .Boundary) ∧
     ((vertexTypeOf hexTriangulation).getD 0 .Interior = .Interior →
      ∃ ea eb ec, hexTriangulation.halfedges.getD (0 * 3) none = some ea ∧
        hexTriangulation.halfedges.getD (0 * 3 + 1) none = some eb ∧
        hexTriangulation.halfedges.getD (0 * 3 + 2) none = some ec ∧
        interiorConnectedVertices hexTriangulation (vertexTypeOf hexTriangulation) 0 =
          some (some (triangleOfEdge ea, triangleOfEdge eb, triangleOfEdge ec)))) :=
  ⟨⟨by decide, by decide, by decide, by decide⟩,
    claim9_interior_connected hexTriangulation 7 (by decide) (by decide) (by decide) 0
      (by decide)⟩


end Terra

